import Mathlib

/-!
Verification development for the `blaze` full-text search engine (Go).

The Go sources are shallowly embedded here:

* `skiplist.go` — `Position` (a pair of `float64` coordinates, with the
  infinities used as BOF/EOF sentinels) is embedded as a pair of `Coord`
  values, where `Coord` is an integer extended with `ninf`/`inf`.
  Live skip lists only ever store finite integer-valued coordinates, so
  this captures exactly the values the program manipulates.
* `analyzer.go` — the analysis pipeline over Lean `String`s.  Go's
  `len(s)` on a string counts UTF-8 bytes; that is `String.utf8ByteSize`
  here.  The Unicode classification functions (`unicode.IsLetter`,
  `unicode.IsNumber`, `strings.ToLower`) are embedded exactly on code
  points below U+0100 (the range exercised by every claim); code points
  above that range are conservatively treated as non-letters.
  The Snowball stemmer is an external dependency of the repository and is
  out of scope per the specification ("treat the stemmer as an external
  pure function"); it is therefore a parameter `stem : String → String`
  of the pipeline.
* `index.go`, `search.go`, `query.go`, `serialization.go` — see the
  corresponding sections below.
-/

namespace Blaze

/-! ### Coordinates: `float64` values used by `Position`

`Position.DocumentID`/`Position.Offset` are Go `float64`s holding either a
(small) integer or `math.Inf(±1)`.  `Coord` is that value space. -/

/-- One coordinate of a `Position`: an integer, or one of the two infinite
sentinel values `BOF = math.Inf(-1)` and `EOF = math.Inf(1)`. -/
inductive Coord : Type where
  | ninf : Coord
  | val : Int → Coord
  | inf : Coord
  deriving DecidableEq, Repr

namespace Coord

/-- Strict `<` on coordinates, as `float64` comparison behaves on these
values: `-∞ < n < +∞` and integer comparison in between. -/
def ltb : Coord → Coord → Bool
  | ninf, ninf => false
  | ninf, _ => true
  | val _, ninf => false
  | val a, val b => a < b
  | val _, inf => true
  | inf, _ => false

/-- Equality test on coordinates (as `float64` `==` behaves on them). -/
def eqb : Coord → Coord → Bool :=
  fun a b => a = b

/-- `x + 1` on coordinates; on `float64`, `±∞ + 1 = ±∞`. -/
def add1 : Coord → Coord
  | ninf => ninf
  | val n => val (n + 1)
  | inf => inf

end Coord

/-! ### Positions (`skiplist.go`) -/

/-- A location in a document: which document, and which word offset inside
it.  Mirrors `type Position struct { DocumentID, Offset float64 }`. -/
structure Position : Type where
  DocumentID : Coord
  Offset : Coord
  deriving DecidableEq, Repr

/-- `BOFDocument = Position{BOF, BOF}`. -/
def BOFDocument : Position := ⟨Coord.ninf, Coord.ninf⟩

/-- `EOFDocument = Position{EOF, EOF}`. -/
def EOFDocument : Position := ⟨Coord.inf, Coord.inf⟩

namespace Position

/-- `IsBeginning` checks `p.Offset == BOF`. -/
def IsBeginning (p : Position) : Bool := p.Offset = Coord.ninf

/-- `IsEnd` checks `p.Offset == EOF`. -/
def IsEnd (p : Position) : Bool := p.Offset = Coord.inf

/-- `IsBefore`: document order first, then offset order. -/
def IsBefore (p other : Position) : Bool :=
  if Coord.ltb p.DocumentID other.DocumentID then true
  else Coord.eqb p.DocumentID other.DocumentID && Coord.ltb p.Offset other.Offset

/-- `IsAfter`: document order first, then offset order. -/
def IsAfter (p other : Position) : Bool :=
  if Coord.ltb other.DocumentID p.DocumentID then true
  else Coord.eqb p.DocumentID other.DocumentID && Coord.ltb other.Offset p.Offset

/-- `Equals` compares both fields. -/
def Equals (p other : Position) : Bool :=
  Coord.eqb p.DocumentID other.DocumentID && Coord.eqb p.Offset other.Offset

end Position

/-! ### Analyzer (`analyzer.go`)

The pipeline is parametrized by `stem : String → String`, the external
Snowball (Porter2) stemmer, which the specification places out of scope
("treat the stemmer as an external pure function `stem(word) -> word`").
Unicode character classes are embedded exactly for code points below
U+0100 (the range every claim exercises); higher code points are treated
as non-letters by this model. -/

/-- Configuration options mirroring `type AnalyzerConfig struct`.
`MinTokenLength` is a Go `int`, hence `Int` here. -/
structure AnalyzerConfig : Type where
  MinTokenLength : Int
  EnableStemming : Bool
  EnableStopwords : Bool
  deriving DecidableEq, Repr

/-- `DefaultConfig()` from the source: minimum length 2, stemming and
stopword removal enabled. -/
def DefaultConfig : AnalyzerConfig :=
  { MinTokenLength := 2, EnableStemming := true, EnableStopwords := true }

/-- Go's `unicode.IsLetter`, restricted to code points below U+0100 where
it is embedded exactly (ASCII letters plus the Latin-1 letters `ª µ º`,
`À`–`Ö`, `Ø`–`ö`, `ø`–`ÿ`); higher code points are conservatively mapped
to `false` by this model. -/
def goIsLetter (c : Char) : Bool :=
  let v := c.toNat
  (0x41 ≤ v && v ≤ 0x5A) || (0x61 ≤ v && v ≤ 0x7A) ||
  v == 0xAA || v == 0xB5 || v == 0xBA ||
  (0xC0 ≤ v && v ≤ 0xD6) || (0xD8 ≤ v && v ≤ 0xF6) ||
  (0xF8 ≤ v && v ≤ 0xFF)

/-- Go's `unicode.IsNumber`, restricted to code points below U+0100
(digits `0`–`9` plus `² ³ ¹ ¼ ½ ¾`). -/
def goIsNumber (c : Char) : Bool :=
  let v := c.toNat
  (0x30 ≤ v && v ≤ 0x39) ||
  v == 0xB2 || v == 0xB3 || v == 0xB9 || v == 0xBC || v == 0xBD || v == 0xBE

/-- Per-rune case mapping of Go's `strings.ToLower`, exact below U+0100:
`A`–`Z` and `À`–`Þ` (except `×`) map 32 code points up. -/
def goToLowerChar (c : Char) : Char :=
  let v := c.toNat
  if (0x41 ≤ v && v ≤ 0x5A) || ((0xC0 ≤ v && v ≤ 0xDE) && v != 0xD7) then
    Char.ofNat (v + 32)
  else c

/-- Delimiter predicate of `tokenize`: split on any rune that is neither a
letter nor a number. -/
def isDelimiter (c : Char) : Bool :=
  !(goIsLetter c || goIsNumber c)

/-- Recursion of `fieldsFunc`, structural in a fuel argument: each step
consumes at least one character, so fuel equal to the list length always
suffices. -/
def fieldsFuncAux (p : Char → Bool) : Nat → List Char → List (List Char)
  | 0, _ => []
  | _, [] => []
  | fuel + 1, c :: rest =>
    if p c then fieldsFuncAux p fuel rest
    else
      (c :: rest.takeWhile (fun x => !p x)) ::
        fieldsFuncAux p fuel (rest.dropWhile (fun x => !p x))

/-- Field splitting as done by Go's `strings.FieldsFunc`: maximal runs of
non-delimiter characters, empty segments discarded. -/
def fieldsFunc (p : Char → Bool) (s : List Char) : List (List Char) :=
  fieldsFuncAux p s.length s

/-- `tokenize` splits text on any character that is not a letter or a
number (`strings.FieldsFunc`). -/
def tokenize (text : String) : List String :=
  (fieldsFunc isDelimiter text.data).map List.asString

/-- `lowercaseFilter` lowercases every token (`strings.ToLower`). -/
def lowercaseFilter (tokens : List String) : List String :=
  tokens.map (fun t => (t.data.map goToLowerChar).asString)

/-- `englishStopwords`: the exact key set of the source's stopword map. -/
def englishStopwords : List String := [
  "a", "about", "above", "across", "after", "afterwards", "again",
  "against", "all", "almost", "alone", "along", "already", "also",
  "although", "always", "am", "among", "amongst", "amoungst", "amount",
  "an", "and", "another", "any", "anyhow", "anyone", "anything",
  "anyway", "anywhere", "are", "around", "as", "at", "back", "be",
  "became", "because", "become", "becomes", "becoming", "been", "before",
  "beforehand", "behind", "being", "below", "beside", "besides",
  "between", "beyond", "bill", "both", "bottom", "but", "by", "call",
  "can", "cannot", "cant", "co", "con", "could", "couldnt", "cry", "de",
  "describe", "detail", "do", "done", "down", "due", "during", "each",
  "eg", "eight", "either", "eleven", "else", "elsewhere", "empty",
  "enough", "etc", "even", "ever", "every", "everyone", "everything",
  "everywhere", "except", "few", "fifteen", "fify", "fill", "find",
  "fire", "first", "five", "for", "former", "formerly", "forty", "found",
  "four", "from", "front", "full", "further", "get", "give", "go", "had",
  "has", "hasnt", "have", "he", "hence", "her", "here", "hereafter",
  "hereby", "herein", "hereupon", "hers", "herself", "him", "himself",
  "his", "how", "however", "hundred", "ie", "if", "in", "inc", "indeed",
  "interest", "into", "is", "it", "its", "itself", "keep", "last",
  "latter", "latterly", "least", "less", "ltd", "made", "many", "may",
  "me", "meanwhile", "might", "mill", "mine", "more", "moreover", "most",
  "mostly", "move", "much", "must", "my", "myself", "name", "namely",
  "neither", "never", "nevertheless", "next", "nine", "no", "nobody",
  "none", "noone", "nor", "not", "nothing", "now", "nowhere", "of",
  "off", "often", "on", "once", "one", "only", "onto", "or", "other",
  "others", "otherwise", "our", "ours", "ourselves", "out", "over",
  "own", "part", "per", "perhaps", "please", "put", "rather", "re",
  "same", "see", "seem", "seemed", "seeming", "seems", "serious",
  "several", "she", "should", "show", "side", "since", "sincere", "six",
  "sixty", "so", "some", "somehow", "someone", "something", "sometime",
  "sometimes", "somewhere", "still", "such", "system", "take", "ten",
  "than", "that", "the", "their", "them", "themselves", "then", "thence",
  "there", "thereafter", "thereby", "therefore", "therein", "thereupon",
  "these", "they", "thickv", "thin", "third", "this", "those", "though",
  "three", "through", "throughout", "thru", "thus", "to", "together",
  "too", "top", "toward", "towards", "twelve", "twenty", "two", "un",
  "under", "until", "up", "upon", "us", "very", "via", "was", "we",
  "well", "were", "what", "whatever", "when", "whence", "whenever",
  "where", "whereafter", "whereas", "whereby", "wherein", "whereupon",
  "wherever", "whether", "which", "while", "whither", "who", "whoever",
  "whole", "whom", "whose", "why", "will", "with", "within", "without",
  "would", "yet", "you", "your", "yours", "yourself", "yourselves"  ]

/-- `isStopword` checks membership in the stopword set. -/
def isStopword (token : String) : Bool :=
  englishStopwords.contains token

/-- `stopwordFilter`: the source's append loop keeping tokens that are
not stopwords. -/
def stopwordFilter (tokens : List String) : List String :=
  tokens.foldl (fun r token => if !isStopword token then r ++ [token] else r) []

/-- `lengthFilter`: the source's append loop keeping tokens with
`len(token) >= minLength`.  Go's `len` on a string is its UTF-8 byte
count, i.e. `String.utf8ByteSize`. -/
def lengthFilter (tokens : List String) (minLength : Int) : List String :=
  tokens.foldl
    (fun r token =>
      if minLength ≤ (token.utf8ByteSize : Int) then r ++ [token] else r) []

/-- `stemmerFilter` maps the external stemmer over all tokens. -/
def stemmerFilter (stem : String → String) (tokens : List String) : List String :=
  tokens.map stem

/-- `AnalyzeWithConfig`: tokenize, lowercase, optionally drop stopwords,
drop short tokens, optionally stem — in exactly this order. -/
def AnalyzeWithConfig (stem : String → String) (text : String)
    (config : AnalyzerConfig) : List String :=
  let tokens := tokenize text
  let tokens := lowercaseFilter tokens
  let tokens := if config.EnableStopwords then stopwordFilter tokens else tokens
  let tokens := lengthFilter tokens config.MinTokenLength
  if config.EnableStemming then stemmerFilter stem tokens else tokens

/-- `Analyze` applies the default configuration. -/
def Analyze (stem : String → String) (text : String) : List String :=
  AnalyzeWithConfig stem text DefaultConfig

/-- Number of tokens the default pipeline produces.  The stemming stage is
a `map`, so the token count never depends on the stemmer; this function
computes it without consulting `stem` (see `analyze_length_eq`). -/
def analyzeLength (text : String) : Nat :=
  (lengthFilter (stopwordFilter (lowercaseFilter (tokenize text)))
    DefaultConfig.MinTokenLength).length

/-! ### Go `int`/`float64` conversions used by the sources -/

/-- Go's `int(f)` for a `float64` coordinate.  Finite values convert
exactly; converting `±Inf` is implementation-specific in Go (the gc/amd64
backend yields `math.MinInt64`), and no verified statement depends on the
sentinel case. -/
def Coord.toIntGo : Coord → Int
  | Coord.val n => n
  | Coord.ninf => -(2 ^ 63)
  | Coord.inf => -(2 ^ 63)

/-- `GetDocumentID` returns the document id as an integer. -/
def Position.GetDocumentID (p : Position) : Int := p.DocumentID.toIntGo

/-- `GetOffset` returns the offset as an integer. -/
def Position.GetOffset (p : Position) : Int := p.Offset.toIntGo

/-! ### Index data model (`index.go`, `skiplist.go`, `serialization.go`)

A live skip list is embedded by its level-0 node sequence.  The first
element is the sentinel head node (key `Position{0, 0}`, Go's zero
value); the remaining nodes carry the stored positions in ascending
order.  Each node's forward pointers are kept in the at-rest form the
codec uses: a list of 1-based node indices into this sequence (index 0
denotes `nil`), which is exactly how `serialization.go` writes and
rebuilds the `Tower` arrays. -/

/-- One skip-list node as the codec sees it: its key (always a finite
position for stored nodes) and its tower of forward pointers encoded as
1-based node indices. -/
structure WNode : Type where
  docID : Int
  offset : Int
  tower : List Nat
  deriving DecidableEq, Repr

/-- Key of a stored node as a `Position`. -/
def WNode.pos (n : WNode) : Position := ⟨Coord.val n.docID, Coord.val n.offset⟩

/-- The sequence of stored keys of a posting list: every node after the
sentinel head. -/
def postingKeys (nodes : List WNode) : List Position :=
  (nodes.drop 1).map WNode.pos

/-- Per-document statistics (`type DocumentStats struct`).  `TermFreqs`
is a Go map; it is embedded as an association list whose order stands for
the (unspecified) iteration order of the map. -/
structure DocumentStats : Type where
  DocID : Int
  Length : Int
  TermFreqs : List (String × Int)
  deriving DecidableEq, Repr

/-- BM25 tuning parameters.  The two fields are `float64` in Go; they are
embedded by their IEEE-754 bit patterns, which is also exactly what the
codec stores.  `qOfFloatBits` recovers the numeric value. -/
structure BM25Parameters : Type where
  K1bits : Nat
  Bbits : Nat
  deriving DecidableEq, Repr

/-- Bit pattern of the `float64` value `1.5` (default `K1`). -/
def float64Bits15 : Nat := 0x3FF8000000000000

/-- Bit pattern of the `float64` value `0.75` (default `B`). -/
def float64Bits075 : Nat := 0x3FE8000000000000

/-- `DefaultBM25Parameters()`: `K1 = 1.5`, `B = 0.75`. -/
def DefaultBM25Parameters : BM25Parameters :=
  { K1bits := float64Bits15, Bbits := float64Bits075 }

/-- Numeric value of a finite `float64` from its bit pattern (sign,
biased exponent, mantissa).  `±Inf`/`NaN` patterns fall outside the
embedded fragment and are mapped to `0`. -/
def qOfFloatBits (bits : Nat) : ℚ :=
  let s : ℕ := bits / 2 ^ 63 % 2
  let e : ℕ := bits / 2 ^ 52 % 2 ^ 11
  let m : ℕ := bits % 2 ^ 52
  if e = 2047 then 0
  else
    let mant : ℕ := if e = 0 then m else m + 2 ^ 52
    let e2 : ℕ := if e = 0 then 1 else e
    let mag : ℚ :=
      if 1075 ≤ e2 then ((mant * 2 ^ (e2 - 1075) : ℕ) : ℚ)
      else (mant : ℚ) / ((2 ^ (1075 - e2) : ℕ) : ℚ)
    (if s = 1 then -1 else 1) * mag

/-- The inverted index (`type InvertedIndex struct`).  The three Go maps
are embedded as association lists; their order stands for the
unspecified iteration order Go chooses when ranging over the map, and is
irrelevant to map lookups. -/
structure InvertedIndex : Type where
  DocBitmaps : List (String × Finset ℕ)
  PostingsList : List (String × List WNode)
  DocStats : List (Int × DocumentStats)
  TotalDocs : Int
  TotalTerms : Int
  BM25Params : BM25Parameters
  deriving DecidableEq

/-- `NewInvertedIndex()`: everything empty, default BM25 parameters. -/
def NewInvertedIndex : InvertedIndex :=
  { DocBitmaps := [], PostingsList := [], DocStats := [],
    TotalDocs := 0, TotalTerms := 0, BM25Params := DefaultBM25Parameters }

/-- Go map lookup on an association list (string keys). -/
def lookupStr {α : Type} : List (String × α) → String → Option α
  | [], _ => none
  | (k, v) :: rest, key => if k = key then some v else lookupStr rest key

/-- Go map lookup on an association list (integer keys). -/
def lookupInt {α : Type} : List (Int × α) → Int → Option α
  | [], _ => none
  | (k, v) :: rest, key => if k = key then some v else lookupInt rest key

/-- `getPostingList` retrieves the posting list for a token. -/
def InvertedIndex.getPostingList (idx : InvertedIndex) (token : String) :
    Option (List WNode) :=
  lookupStr idx.PostingsList token

/-! ### Skip-list lookups (`skiplist.go`) on the level-0 key sequence

`FindGreaterThan` returns the least stored key strictly greater than the
probe (or EOF), `FindLessThan` the greatest stored key strictly less (or
BOF), and `Last` the key of the final node — the head itself when no
node was ever inserted (Go's zero `Position{0, 0}`). -/

/-- `FindGreaterThan` on the ascending key sequence: the first (hence
least) key strictly greater than `key`, else `EOFDocument`. -/
def findGreaterThan : List Position → Position → Position
  | [], _ => EOFDocument
  | p :: rest, key => if key.IsBefore p then p else findGreaterThan rest key

/-- `FindLessThan` on the ascending key sequence: the last (hence
greatest) key strictly less than `key`, else `BOFDocument`. -/
def findLessThan : List Position → Position → Position
  | [], _ => BOFDocument
  | p :: rest, key =>
    if p.IsBefore key then
      let r := findLessThan rest key
      if r = BOFDocument then p else r
    else BOFDocument

/-- `SkipList.Last()`: the key of the last level-0 node; on a list with
no stored nodes this is the head's zero key `Position{0, 0}`. -/
def skipListLast (nodes : List WNode) : Position :=
  match (nodes.map WNode.pos).getLast? with
  | some p => p
  | none => EOFDocument

/-! ### Index primitives (`index.go`)

Each Go primitive returns `(Position, error)`; every caller in
`search.go` discards the error, so the embedding returns the position
alone.  `First` on a posting list with no stored nodes dereferences a
nil pointer in Go; live indexes never contain such a list, and theorems
that rely on `First` carry that invariant as a hypothesis (the model
returns `EOFDocument` there). -/

/-- `First`: the least stored position of a token, `EOFDocument` when the
token has no posting list. -/
def InvertedIndex.First (idx : InvertedIndex) (token : String) : Position :=
  match idx.getPostingList token with
  | none => EOFDocument
  | some nodes =>
    match postingKeys nodes with
    | [] => EOFDocument
    | p :: _ => p

/-- `Last`: the greatest stored position of a token, `EOFDocument` when
the token has no posting list. -/
def InvertedIndex.Last (idx : InvertedIndex) (token : String) : Position :=
  match idx.getPostingList token with
  | none => EOFDocument
  | some nodes => skipListLast nodes

/-- `Next`: the least stored position of `token` strictly after
`currentPos` (BOF starts from `First`, EOF stays at EOF). -/
def InvertedIndex.Next (idx : InvertedIndex) (token : String)
    (currentPos : Position) : Position :=
  if currentPos.IsBeginning then idx.First token
  else if currentPos.IsEnd then EOFDocument
  else
    match idx.getPostingList token with
    | none => EOFDocument
    | some nodes => findGreaterThan (postingKeys nodes) currentPos

/-- `Previous`: the greatest stored position of `token` strictly before
`currentPos` (EOF starts from `Last`, BOF stays at BOF). -/
def InvertedIndex.Previous (idx : InvertedIndex) (token : String)
    (currentPos : Position) : Position :=
  if currentPos.IsEnd then idx.Last token
  else if currentPos.IsBeginning then BOFDocument
  else
    match idx.getPostingList token with
    | none => BOFDocument
    | some nodes => findLessThan (postingKeys nodes) currentPos

/-! ### Phrase search (`search.go`) -/

/-- Go's `unicode.IsSpace` (exact below U+0100): the ASCII whitespace
characters plus NEL and NBSP. -/
def goIsSpace (c : Char) : Bool :=
  let v := c.toNat
  v == 0x20 || (0x09 ≤ v && v ≤ 0x0D) || v == 0x85 || v == 0xA0

/-- `strings.Fields`: split around runs of whitespace. -/
def stringsFields (s : String) : List String :=
  (fieldsFunc goIsSpace s.data).map List.asString

/-- `findPhraseEnd` hops forward through the terms; if any term has no
further occurrence the phrase does not exist. -/
def findPhraseEnd (idx : InvertedIndex) : List String → Position → Position
  | [], currentPos => currentPos
  | term :: rest, currentPos =>
    let nextPos := idx.Next term currentPos
    if nextPos.IsEnd then EOFDocument
    else findPhraseEnd idx rest nextPos

/-- `findPhraseStart` walks backward from the end through all terms
except the last one. -/
def findPhraseStart (idx : InvertedIndex) (terms : List String)
    (endPos : Position) : Position :=
  (terms.dropLast).reverse.foldl (fun cur t => idx.Previous t cur) endPos

/-- `isValidPhrase`: same document, and offset distance exactly
`termCount - 1`. -/
def isValidPhrase (start stop : Position) (termCount : Int) : Bool :=
  let expectedDistance := termCount - 1
  let actualDistance := stop.GetOffset - start.GetOffset
  Coord.eqb start.DocumentID stop.DocumentID && actualDistance == expectedDistance

/-- `NextPhrase` finds the next occurrence of the phrase after
`startPos`.  The query is split with `strings.Fields` (not the analyzer).
The Go function is recursive; `fuel` bounds the recursion depth, and
exhaustion returns the EOF pair (the Go recursion strictly advances
through the finite index, so any sufficiently large fuel computes the
Go result). -/
def NextPhrase (idx : InvertedIndex) (query : String) :
    Position → Nat → Position × Position
  | _, 0 => (EOFDocument, EOFDocument)
  | startPos, fuel + 1 =>
    let terms := stringsFields query
    let endPos := findPhraseEnd idx terms startPos
    if endPos.IsEnd then (EOFDocument, EOFDocument)
    else
      let phraseStart := findPhraseStart idx terms endPos
      if isValidPhrase phraseStart endPos (terms.length : Int) then
        (phraseStart, endPos)
      else NextPhrase idx query phraseStart fuel

/-! ### Covers (`search.go`) -/

/-- Inner loop of `findCoverEnd`: next occurrence of every token after
`startPos`, keeping the furthest; EOF aborts. -/
def findCoverEndAux (idx : InvertedIndex) (startPos : Position) :
    List String → Position → Position
  | [], maxPos => maxPos
  | token :: rest, maxPos =>
    let tokenPos := idx.Next token startPos
    if tokenPos.IsEnd then EOFDocument
    else findCoverEndAux idx startPos rest
      (if tokenPos.IsAfter maxPos then tokenPos else maxPos)

/-- `findCoverEnd`: the furthest among the next occurrences of all
tokens (starting accumulator: `startPos`). -/
def findCoverEnd (idx : InvertedIndex) (tokens : List String)
    (startPos : Position) : Position :=
  findCoverEndAux idx startPos tokens startPos

/-- Inner loop of `findCoverStart`: previous occurrence of every token
before the bound, keeping the earliest (with the source's
`minPos.IsBeginning()` initialization quirk). -/
def findCoverStartAux (idx : InvertedIndex) (searchBound : Position) :
    List String → Position → Position
  | [], minPos => minPos
  | token :: rest, minPos =>
    let tokenPos := idx.Previous token searchBound
    findCoverStartAux idx searchBound rest
      (if minPos.IsBeginning || tokenPos.IsBefore minPos then tokenPos else minPos)

/-- `findCoverStart`: from one past the cover end, walk each token
backward and keep the earliest position. -/
def findCoverStart (idx : InvertedIndex) (tokens : List String)
    (endPos : Position) : Position :=
  let searchBound : Position := ⟨endPos.DocumentID, endPos.Offset.add1⟩
  findCoverStartAux idx searchBound tokens BOFDocument

/-- `NextCover` finds the next range containing all tokens.  The Go
function recurses when the candidate spans two documents; `fuel` bounds
that recursion as in `NextPhrase`. -/
def NextCover (idx : InvertedIndex) (tokens : List String) :
    Position → Nat → Position × Position
  | _, 0 => (EOFDocument, EOFDocument)
  | startPos, fuel + 1 =>
    let coverEnd := findCoverEnd idx tokens startPos
    if coverEnd.IsEnd then (EOFDocument, EOFDocument)
    else
      let coverStart := findCoverStart idx tokens coverEnd
      if Coord.eqb coverStart.DocumentID coverEnd.DocumentID then
        (coverStart, coverEnd)
      else NextCover idx tokens coverStart fuel

/-! ### Ranking (`search.go`)

Scores are `float64` in Go.  The proximity contributions are reciprocals
of small integers and the BM25 formula is rational in the inputs apart
from `math.Log`; the embedding computes scores in `ℚ`, taking the
natural logarithm as an abstract parameter `log : ℚ → ℚ` (a transcendental
`float64` routine has no exact executable counterpart).  Claims about
result order and emptiness are insensitive to this reading. -/

/-- A search result (`type Match struct`). -/
structure Match : Type where
  DocID : Int
  Offsets : List Position
  Score : ℚ
  deriving DecidableEq, Repr

/-- Width of a cover as used by the proximity score
`1 / (coverEnd.Offset - coverStart.Offset + 1)` (the subtraction happens
on the raw `float64` offsets; returned covers always carry finite
offsets, so the sentinel case is unreachable and maps to `0`). -/
def coverWidthQ (coverStart coverEnd : Position) : ℚ :=
  match coverEnd.Offset, coverStart.Offset with
  | Coord.val b, Coord.val a => ((b : ℚ) - (a : ℚ) + 1)
  | _, _ => 0

/-- Loop of `collectProximityMatches`: accumulate per-document scores
while the cover iteration stays in one document, emit a `Match` (with
Go's zero `DocID`, which the source never sets) when the document id
increases, and flush the trailing candidate at EOF.  `fuel` bounds the
iteration as in `NextCover`. -/
def collectProximityLoop (idx : InvertedIndex) (tokens : List String) :
    Nat → Position → Position → List Position → ℚ → List Match → List Match
  | 0, _, _, _, _, ms => ms
  | fuel + 1, coverStart, coverEnd, currentCandidate, currentScore, ms =>
    if coverStart.IsEnd then
      if (currentCandidate.headD EOFDocument).IsEnd then ms
      else ms ++ [⟨0, currentCandidate, currentScore⟩]
    else
      let isNewDoc :=
        Coord.ltb (currentCandidate.headD EOFDocument).DocumentID
          coverStart.DocumentID
      let ms' :=
        if isNewDoc then ms ++ [⟨0, currentCandidate, currentScore⟩]
        else ms
      let candidate' :=
        if isNewDoc then [coverStart, coverEnd] else currentCandidate
      let score₀ : ℚ := if isNewDoc then 0 else currentScore
      let score' := score₀ + 1 / coverWidthQ coverStart coverEnd
      let nextPair := NextCover idx tokens coverStart fuel
      collectProximityLoop idx tokens fuel nextPair.1 nextPair.2
        candidate' score' ms'

/-- `collectProximityMatches`: iterate covers from BOF, grouping scores
by document. -/
def collectProximityMatches (idx : InvertedIndex) (tokens : List String)
    (fuel : Nat) : List Match :=
  let first := NextCover idx tokens BOFDocument fuel
  collectProximityLoop idx tokens fuel first.1 first.2 [first.1, first.2] 0 []

/-- `limitResults` truncates to at most `maxResults` entries.
(`maxResults` is a Go `int`; a negative value makes the Go slice
expression panic, and the claims quantify over non-negative values
only, so the model takes a `Nat`.) -/
def limitResults (results : List Match) (maxResults : Nat) : List Match :=
  results.take (min maxResults results.length)

/-- `RankProximity`: analyze the query, score all covers, truncate.
Note the source applies no sort to the collected matches. -/
def RankProximity (stem : String → String) (idx : InvertedIndex)
    (query : String) (maxResults : Nat) (fuel : Nat) : List Match :=
  let tokens := Analyze stem query
  if tokens.length = 0 then []
  else limitResults (collectProximityMatches idx tokens fuel) maxResults

/-- `calculateIDF`, with `math.Log` abstracted as `log`:
`log((N - df + 0.5) / (df + 0.5) + 1)`; a missing bitmap or zero
cardinality yields `0`. -/
def calculateIDF (log : ℚ → ℚ) (idx : InvertedIndex) (term : String) : ℚ :=
  match lookupStr idx.DocBitmaps term with
  | none => 0
  | some bitmap =>
    let df : ℚ := (bitmap.card : ℚ)
    if df = 0 then 0
    else
      let N : ℚ := (idx.TotalDocs : ℚ)
      log ((N - df + 1 / 2) / (df + 1 / 2) + 1)

/-- `calculateBM25Score` for one document over the query terms. -/
def calculateBM25Score (log : ℚ → ℚ) (idx : InvertedIndex) (docID : Int)
    (queryTerms : List String) : ℚ :=
  match lookupInt idx.DocStats docID with
  | none => 0
  | some docStats =>
    let avgDocLen : ℚ := (idx.TotalTerms : ℚ) / (idx.TotalDocs : ℚ)
    let docLen : ℚ := (docStats.Length : ℚ)
    let k1 := qOfFloatBits idx.BM25Params.K1bits
    let b := qOfFloatBits idx.BM25Params.Bbits
    queryTerms.foldl
      (fun score term =>
        let idf := calculateIDF log idx term
        let tf : ℚ := (((lookupStr docStats.TermFreqs term).getD 0 : Int) : ℚ)
        if 0 < tf then
          let numerator := tf * (k1 + 1)
          let denominator := tf + k1 * (1 - b + b * (docLen / avgDocLen))
          score + idf * (numerator / denominator)
        else score)
      0

/-- Phase 1 of `findCandidateDocuments`: the union of the bitmaps of all
query tokens (document ids are `uint32` in the bitmaps and widen to
`int`). -/
def candidateDocSet (idx : InvertedIndex) (tokens : List String) : Finset Int :=
  tokens.foldl
    (fun acc token =>
      match lookupStr idx.DocBitmaps token with
      | none => acc
      | some bitmap => acc ∪ bitmap.image (fun d : ℕ => (d : Int)))
    ∅

/-- Phase 2 of `findCandidateDocuments` for one candidate document: the
positions appended for `docID`, scanning each token's skip list in
order. -/
def candidatePositions (idx : InvertedIndex) (tokens : List String)
    (docID : Int) : List Position :=
  tokens.foldl
    (fun acc token =>
      match idx.getPostingList token with
      | none => acc
      | some nodes =>
        acc ++ (postingKeys nodes).filter (fun p => p.GetDocumentID == docID))
    []

/-- Insertion step of the descending-score sort: keep strictly greater
scores ahead, so equal scores settle in input order. -/
def insertByScore (m : Match) : List Match → List Match
  | [] => [m]
  | x :: rest =>
    if m.Score < x.Score then x :: insertByScore m rest else m :: x :: rest

/-- `sortMatchesByScore` sorts by score, descending.  Go uses
`sort.Slice` with the comparator `Score_i > Score_j`, which fixes the
descending score order but nothing about the relative order of equal
scores; this insertion sort realizes one admissible outcome (it keeps
equal scores in input order, which for Go enters through the map
iteration order modeled by `docOrder` in `RankBM25`). -/
def sortMatchesByScore : List Match → List Match
  | [] => []
  | x :: rest => insertByScore x (sortMatchesByScore rest)

/-- `RankBM25`: analyze the query, score every candidate document, drop
zero scores, sort by descending score, truncate.  `docOrder` is the
order in which Go's `for docID := range candidates` enumerates the
candidate map — unspecified by Go and supplied here as a parameter; a
run of the Go program corresponds to some enumeration of the candidate
set. -/
def RankBM25 (stem : String → String) (log : ℚ → ℚ) (idx : InvertedIndex)
    (query : String) (maxResults : Nat) (docOrder : List Int) : List Match :=
  let tokens := Analyze stem query
  if tokens.length = 0 then []
  else
    let results := docOrder.foldl
      (fun acc docID =>
        let score := calculateBM25Score log idx docID tokens
        if 0 < score then
          acc ++ [⟨docID, candidatePositions idx tokens docID, score⟩]
        else acc)
      ([] : List Match)
    limitResults (sortMatchesByScore results) maxResults

/-! ### Boolean query builder (`query.go`) -/

/-- Pending boolean operator (`type QueryOp int`). -/
inductive QueryOp : Type where
  | OpNone : QueryOp
  | OpAnd : QueryOp
  | OpOr : QueryOp
  deriving DecidableEq, Repr

/-- Builder state (`type QueryBuilder struct`); the index is passed to
the operations explicitly.  Bitmaps of `uint32` document ids are
embedded as `Finset ℕ`. -/
structure QueryBuilder : Type where
  stack : List (Finset ℕ)
  ops : List QueryOp
  negate : Bool
  terms : List String
  deriving DecidableEq

/-- `NewQueryBuilder`: empty state. -/
def NewQueryBuilder : QueryBuilder :=
  { stack := [], ops := [], negate := false, terms := [] }

/-- `pushBitmap` appends to the operand stack. -/
def QueryBuilder.pushBitmap (qb : QueryBuilder) (bitmap : Finset ℕ) :
    QueryBuilder :=
  { qb with stack := qb.stack ++ [bitmap] }

/-- `getTermBitmap`: the bitmap of a term, empty when absent (`Clone` is
the identity in a functional model). -/
def getTermBitmap (idx : InvertedIndex) (term : String) : Finset ℕ :=
  (lookupStr idx.DocBitmaps term).getD ∅

/-- `negateBitmap`: all documents of `DocStats` except those in the
bitmap (`uint32` keys). -/
def negateBitmap (idx : InvertedIndex) (bitmap : Finset ℕ) : Finset ℕ :=
  let allDocs : Finset ℕ :=
    (idx.DocStats.map (fun e => (e.1.toNat : ℕ))).toFinset
  allDocs \ bitmap

/-- `Term`: analyze, take the first analyzed token, track it for BM25
when not negated, push its (possibly negated) bitmap. -/
def QueryBuilder.Term (stem : String → String) (idx : InvertedIndex)
    (qb : QueryBuilder) (term : String) : QueryBuilder :=
  match Analyze stem term with
  | [] => qb.pushBitmap ∅
  | analyzedTerm :: _ =>
    let qb₁ :=
      if !qb.negate then { qb with terms := qb.terms ++ [analyzedTerm] } else qb
    let bitmap := getTermBitmap idx analyzedTerm
    let qb₂ := if qb₁.negate then { qb₁ with negate := false } else qb₁
    let bitmap' := if qb₁.negate then negateBitmap idx bitmap else bitmap
    qb₂.pushBitmap bitmap'

/-- `And` records a pending AND. -/
def QueryBuilder.And (qb : QueryBuilder) : QueryBuilder :=
  { qb with ops := qb.ops ++ [QueryOp.OpAnd] }

/-- `Or` records a pending OR. -/
def QueryBuilder.Or (qb : QueryBuilder) : QueryBuilder :=
  { qb with ops := qb.ops ++ [QueryOp.OpOr] }

/-- `Not` flags the next leaf as negated. -/
def QueryBuilder.Not (qb : QueryBuilder) : QueryBuilder :=
  { qb with negate := true }

/-- Left-to-right fold of `Execute` over the operand stack: operand `i`
combines with operator `i - 1`, and operands beyond the operator list
are skipped (mirroring the source's `i-1 < len(ops)` guard). -/
def executeLoop : Finset ℕ → List (Finset ℕ) → List QueryOp → Finset ℕ
  | acc, [], _ => acc
  | acc, _ :: rest, [] => executeLoop acc rest []
  | acc, b :: rest, op :: opsRest =>
    let acc' :=
      match op with
      | QueryOp.OpAnd => acc ∩ b
      | QueryOp.OpOr => acc ∪ b
      | QueryOp.OpNone => acc
    executeLoop acc' rest opsRest

/-- `Execute`: fold the stack left-associatively through the recorded
operators; empty stack gives the empty set. -/
def QueryBuilder.Execute (qb : QueryBuilder) : Finset ℕ :=
  match qb.stack with
  | [] => ∅
  | first :: rest => executeLoop first rest qb.ops

/-- `AllOf`: chain all terms with AND. -/
def AllOf (stem : String → String) (idx : InvertedIndex)
    (terms : List String) : Finset ℕ :=
  match terms with
  | [] => ∅
  | t :: rest =>
    (rest.foldl (fun qb u => (qb.And).Term stem idx u)
      (NewQueryBuilder.Term stem idx t)).Execute

/-- `AnyOf`: chain all terms with OR. -/
def AnyOf (stem : String → String) (idx : InvertedIndex)
    (terms : List String) : Finset ℕ :=
  match terms with
  | [] => ∅
  | t :: rest =>
    (rest.foldl (fun qb u => (qb.Or).Term stem idx u)
      (NewQueryBuilder.Term stem idx t)).Execute

/-- `TermExcluding`: `Term(include).And().Not().Term(exclude).Execute()`. -/
def TermExcluding (stem : String → String) (idx : InvertedIndex)
    (includeTerm excludeTerm : String) : Finset ℕ :=
  ((((NewQueryBuilder.Term stem idx includeTerm).And).Not).Term stem idx
    excludeTerm).Execute

/-! ### Binary codec (`serialization.go`)

The byte stream is a `List ℕ` whose entries are below 256 by
construction.  Multi-byte integers are little-endian.  Go string bytes
are UTF-8; `utf8EncodeCharNat`/`utf8DecodeBytes` embed that encoding.
The decoder mirrors the Go code's unchecked slicing: any read past the
end of the buffer is a Go runtime panic, represented by the `.inl`
branch of the result, which carries the target index in the partially
mutated state it has at that point. -/

/-- Little-endian bytes of `uint16(n)`. -/
def u16LE (n : Nat) : List Nat := [n % 256, n / 256 % 256]

/-- Little-endian bytes of `uint32(n)`. -/
def u32LE (n : Nat) : List Nat :=
  [n % 256, n / 256 % 256, n / 2 ^ 16 % 256, n / 2 ^ 24 % 256]

/-- Little-endian bytes of `uint64(n)`. -/
def u64LE (n : Nat) : List Nat :=
  [n % 256, n / 2 ^ 8 % 256, n / 2 ^ 16 % 256, n / 2 ^ 24 % 256,
   n / 2 ^ 32 % 256, n / 2 ^ 40 % 256, n / 2 ^ 48 % 256, n / 2 ^ 56 % 256]

/-- Go's conversion of a signed integer to its `uint32` bit pattern. -/
def u32OfInt (n : Int) : Nat := (n % (2 ^ 32 : Int)).toNat

/-- Go's conversion of a signed integer to its `uint64` bit pattern. -/
def u64OfInt (n : Int) : Nat := (n % (2 ^ 64 : Int)).toNat

/-- Signed reading of a `uint32` bit pattern (`int32(u)` widened to
`int`). -/
def intOfU32 (n : Nat) : Int :=
  if n < 2 ^ 31 then (n : Int) else (n : Int) - 2 ^ 32

/-- Signed reading of a `uint64` bit pattern (`int64(u)`). -/
def intOfU64 (n : Nat) : Int :=
  if n < 2 ^ 63 then (n : Int) else (n : Int) - 2 ^ 64

/-- UTF-8 encoding of one character (what `[]byte(string)` produces in
Go for each rune). -/
def utf8EncodeCharNat (c : Char) : List Nat :=
  let v := c.toNat
  if v < 0x80 then [v]
  else if v < 0x800 then [0xC0 + v / 64, 0x80 + v % 64]
  else if v < 0x10000 then
    [0xE0 + v / 4096, 0x80 + v / 64 % 64, 0x80 + v % 64]
  else
    [0xF0 + v / 262144, 0x80 + v / 4096 % 64, 0x80 + v / 64 % 64,
     0x80 + v % 64]

/-- UTF-8 bytes of a string (`[]byte(s)` in Go). -/
def strBytes (s : String) : List Nat :=
  (s.data.map utf8EncodeCharNat).flatten

/-- Recursion of UTF-8 decoding, structural in a fuel argument: each
step consumes at least one byte, so fuel equal to the byte count always
suffices (`none` on truncated fuel can then never fire). -/
def utf8DecodeAux : Nat → List Nat → Option (List Char)
  | 0, [] => some []
  | 0, _ :: _ => none
  | _, [] => some []
  | fuel + 1, b :: rest =>
    if b < 0x80 then
      (utf8DecodeAux fuel rest).map (fun cs => Char.ofNat b :: cs)
    else if b < 0xC0 then none
    else if b < 0xE0 then
      match rest with
      | b1 :: rest₁ =>
        if 0x80 ≤ b1 ∧ b1 < 0xC0 then
          let v := (b - 0xC0) * 64 + (b1 - 0x80)
          if 0x80 ≤ v then
            (utf8DecodeAux fuel rest₁).map (fun cs => Char.ofNat v :: cs)
          else none
        else none
      | [] => none
    else if b < 0xF0 then
      match rest with
      | b1 :: b2 :: rest₂ =>
        if (0x80 ≤ b1 ∧ b1 < 0xC0) ∧ (0x80 ≤ b2 ∧ b2 < 0xC0) then
          let v := (b - 0xE0) * 4096 + (b1 - 0x80) * 64 + (b2 - 0x80)
          if 0x800 ≤ v ∧ ¬(0xD800 ≤ v ∧ v ≤ 0xDFFF) then
            (utf8DecodeAux fuel rest₂).map (fun cs => Char.ofNat v :: cs)
          else none
        else none
      | _ => none
    else if b < 0xF8 then
      match rest with
      | b1 :: b2 :: b3 :: rest₃ =>
        if (0x80 ≤ b1 ∧ b1 < 0xC0) ∧ (0x80 ≤ b2 ∧ b2 < 0xC0) ∧
            (0x80 ≤ b3 ∧ b3 < 0xC0) then
          let v := (b - 0xF0) * 262144 + (b1 - 0x80) * 4096 +
            (b2 - 0x80) * 64 + (b3 - 0x80)
          if 0x10000 ≤ v ∧ v < 0x110000 then
            (utf8DecodeAux fuel rest₃).map (fun cs => Char.ofNat v :: cs)
          else none
        else none
      | _ => none
    else none
/-- UTF-8 decoding of a byte list.  `none` on malformed input; the
decoder below treats that case as a failure (Go would instead build a
string carrying the raw bytes, a case no encoder output produces). -/
def utf8DecodeBytes (bytes : List Nat) : Option (List Char) :=
  utf8DecodeAux bytes.length bytes


/-! #### Encoder -/

/-- `encodeHeader`: total docs (u32), total terms (u64), the two BM25
`float64`s (bit patterns), and the number of document-statistics
records (u32). -/
def encodeHeader (idx : InvertedIndex) : List Nat :=
  u32LE (u32OfInt idx.TotalDocs) ++ u64LE (u64OfInt idx.TotalTerms) ++
  u64LE idx.BM25Params.K1bits ++ u64LE idx.BM25Params.Bbits ++
  u32LE idx.DocStats.length

/-- Bytes of one term-frequency entry: length-prefixed term bytes then
the count (u32). -/
def encodeTermFreq (entry : String × Int) : List Nat :=
  u32LE (strBytes entry.1).length ++ strBytes entry.1 ++
  u32LE (u32OfInt entry.2)

/-- Bytes of one document-statistics record. -/
def encodeDocStatsRecord (st : DocumentStats) : List Nat :=
  u32LE (u32OfInt st.DocID) ++ u32LE (u32OfInt st.Length) ++
  u32LE st.TermFreqs.length ++ (st.TermFreqs.map encodeTermFreq).flatten

/-- `encodeDocStats`: the records of all documents, in the map's
iteration order (embedded as the association-list order). -/
def encodeDocStats (idx : InvertedIndex) : List Nat :=
  (idx.DocStats.map (fun e => encodeDocStatsRecord e.2)).flatten

/-- `writeString`/`writeBytes`: a u32 length prefix followed by the
payload. -/
def writeLenPrefixed (payload : List Nat) : List Nat :=
  u32LE payload.length ++ payload

/-- `encodeNodePositions`: each node (the head included) contributes its
key as two `int32`s. -/
def encodeNodePositions (nodes : List WNode) : List Nat :=
  (nodes.map (fun n => u32LE (u32OfInt n.docID) ++ u32LE (u32OfInt n.offset))).flatten

/-- `collectTowerIndices` followed by `encodeTowerForNode`: the
consecutive non-nil pointers from level 0 (at most `MaxHeight = 32`
levels), as u16 indices; an empty tower is written as a single zero
u16. -/
def encodeTowerForNode (n : WNode) : List Nat :=
  let towerIndices := (n.tower.take 32).takeWhile (fun i => i ≠ 0)
  if towerIndices.length = 0 then writeLenPrefixed (u16LE 0)
  else writeLenPrefixed (towerIndices.map u16LE).flatten

/-- `encodeTerm`: term name, node positions, then one tower record per
node. -/
def encodeTerm (term : String) (nodes : List WNode) : List Nat :=
  writeLenPrefixed (strBytes term) ++
  writeLenPrefixed (encodeNodePositions nodes) ++
  (nodes.map encodeTowerForNode).flatten

/-- `Encode`: header, document statistics, then every posting list in
the map's iteration order (the association-list order of the model). -/
def InvertedIndex.Encode (idx : InvertedIndex) : List Nat :=
  encodeHeader idx ++ encodeDocStats idx ++
  (idx.PostingsList.map (fun e => encodeTerm e.1 e.2)).flatten

/-! #### Decoder -/

/-- Slice `data[off : off+n]`, or `none` when the Go slicing would
panic. -/
def readBytes (data : List Nat) (off n : Nat) : Option (List Nat) :=
  if off + n ≤ data.length then some ((data.drop off).take n) else none

/-- Little-endian accumulation of a byte list. -/
def leVal (bytes : List Nat) : Nat :=
  bytes.foldr (fun b acc => b + 256 * acc) 0

/-- `binary.LittleEndian.Uint16(data[off:off+2])`. -/
def readU16 (data : List Nat) (off : Nat) : Option Nat :=
  (readBytes data off 2).map leVal

/-- `binary.LittleEndian.Uint32(data[off:off+4])`. -/
def readU32 (data : List Nat) (off : Nat) : Option Nat :=
  (readBytes data off 4).map leVal

/-- `binary.LittleEndian.Uint64(data[off:off+8])`. -/
def readU64 (data : List Nat) (off : Nat) : Option Nat :=
  (readBytes data off 8).map leVal

/-- `decodeHeader`: reads the four header scalars, mutating the target
index field by field; `.inl` is a panic carrying the fields assigned so
far. -/
def decodeHeader (idx : InvertedIndex) (data : List Nat) (off : Nat) :
    Sum InvertedIndex (InvertedIndex × Nat) :=
  match readU32 data off with
  | none => .inl idx
  | some td =>
    let idx₁ := { idx with TotalDocs := (td : Int) }
    match readU64 data (off + 4) with
    | none => .inl idx₁
    | some tt =>
      let idx₂ := { idx₁ with TotalTerms := intOfU64 tt }
      match readU64 data (off + 12) with
      | none => .inl idx₂
      | some k1 =>
        let idx₃ := { idx₂ with
          BM25Params := { idx₂.BM25Params with K1bits := k1 } }
        match readU64 data (off + 20) with
        | none => .inl idx₃
        | some bb =>
          .inr ({ idx₃ with
            BM25Params := { idx₃.BM25Params with Bbits := bb } }, off + 28)

/-- Inner loop of `decodeDocStats` reading the term-frequency entries of
one record. -/
def decodeTermFreqsLoop (data : List Nat) :
    Nat → Nat → List (String × Int) → Option (List (String × Int) × Nat)
  | 0, off, acc => some (acc, off)
  | count + 1, off, acc =>
    match readU32 data off with
    | none => none
    | some termLen =>
      match readBytes data (off + 4) termLen with
      | none => none
      | some termBytes =>
        match utf8DecodeBytes termBytes with
        | none => none
        | some chars =>
          match readU32 data (off + 4 + termLen) with
          | none => none
          | some freq =>
            decodeTermFreqsLoop data count (off + 4 + termLen + 4)
              (acc ++ [(chars.asString, (freq : Int))])

/-- Outer loop of `decodeDocStats` reading whole records; the map insert
`idx.DocStats[docID] = docStats` is embedded as an append. -/
def decodeDocStatsLoop (data : List Nat) :
    Nat → InvertedIndex → Nat → Sum InvertedIndex (InvertedIndex × Nat)
  | 0, idx, off => .inr (idx, off)
  | count + 1, idx, off =>
    match readU32 data off with
    | none => .inl idx
    | some docID =>
      match readU32 data (off + 4) with
      | none => .inl idx
      | some len =>
        match readU32 data (off + 8) with
        | none => .inl idx
        | some numTerms =>
          match decodeTermFreqsLoop data numTerms (off + 12) [] with
          | none => .inl idx
          | some (freqs, off') =>
            let st : DocumentStats :=
              { DocID := (docID : Int), Length := (len : Int),
                TermFreqs := freqs }
            decodeDocStatsLoop data count
              { idx with DocStats := idx.DocStats ++ [((docID : Int), st)] }
              off'

/-- `decodeDocStats`: reset the target's statistics map, then read the
announced number of records. -/
def decodeDocStats (idx : InvertedIndex) (data : List Nat) (off : Nat) :
    Sum InvertedIndex (InvertedIndex × Nat) :=
  match readU32 data off with
  | none => .inl idx
  | some numDocs =>
    decodeDocStatsLoop data numDocs { idx with DocStats := [] } (off + 4)

/-- `readString`: u32 length then that many bytes, decoded as UTF-8. -/
def readGoString (data : List Nat) (off : Nat) : Option (String × Nat) :=
  match readU32 data off with
  | none => none
  | some len =>
    match readBytes data (off + 4) len with
    | none => none
    | some bs =>
      match utf8DecodeBytes bs with
      | none => none
      | some chars => some (chars.asString, off + 4 + len)

/-- Loop of `decodeNodePositions`: reads position pairs (`for i := 0;
i < numValues; i += 2`), creating nodes with empty towers. -/
def decodeNodesLoop (data : List Nat) :
    Nat → Nat → List WNode → Option (List WNode × Nat)
  | 0, off, acc => some (acc, off)
  | count + 1, off, acc =>
    match readU32 data off with
    | none => none
    | some d =>
      match readU32 data (off + 4) with
      | none => none
      | some o =>
        decodeNodesLoop data count (off + 8)
          (acc ++ [{ docID := intOfU32 d, offset := intOfU32 o, tower := [] }])

/-- `decodeNodePositions`: length prefix, then `⌈(dataLength/4)/2⌉`
position pairs. -/
def decodeNodePositions (data : List Nat) (off : Nat) :
    Option (List WNode × Nat) :=
  match readU32 data off with
  | none => none
  | some dataLength =>
    let numValues := dataLength / 4
    decodeNodesLoop data ((numValues + 1) / 2) (off + 4) []

/-- Reads `count` u16 tower entries for one node.  A non-zero entry at a
level `≥ 32` overruns the fixed-size `Tower` array in Go (a panic);
zero entries there are skipped by the source's `targetIndex != 0` guard
and never stored. -/
def decodeTowerEntries (data : List Nat) :
    Nat → Nat → Nat → List Nat → Option (List Nat × Nat)
  | 0, off, _, acc => some (acc, off)
  | count + 1, off, level, acc =>
    match readU16 data off with
    | none => none
    | some entry =>
      if 32 ≤ level ∧ entry ≠ 0 then none
      else decodeTowerEntries data count (off + 2) (level + 1) (acc ++ [entry])

/-- Loop of `decodeTowerStructure` over the nodes in sequence, attaching
each record to its node. -/
def decodeTowersLoop (data : List Nat) :
    List WNode → Nat → List WNode → Option (List WNode × Nat)
  | [], off, acc => some (acc, off)
  | n :: rest, off, acc =>
    match readU32 data off with
    | none => none
    | some towerLength =>
      match decodeTowerEntries data (towerLength / 2) (off + 4) 0 [] with
      | none => none
      | some (entries, off') =>
        decodeTowersLoop data rest off' (acc ++ [{ n with tower := entries }])

/-- `decodeTerm`: term name, node positions, tower records. -/
def decodeTermBlock (data : List Nat) (off : Nat) :
    Option ((String × List WNode) × Nat) :=
  match readGoString data off with
  | none => none
  | some (term, off₁) =>
    match decodeNodePositions data off₁ with
    | none => none
    | some (nodes, off₂) =>
      match decodeTowersLoop data nodes off₂ [] with
      | none => none
      | some (nodes', off₃) => some ((term, nodes'), off₃)

/-- Loop of `Decode` over the posting block until the input is consumed
(`isComplete`).  `fuel` dominates the iteration count; every iteration
consumes at least four bytes, so `data.length` fuel is always enough. -/
def decodeTermsLoop (data : List Nat) :
    Nat → Nat → List (String × List WNode) →
    Option (List (String × List WNode) × Nat)
  | 0, off, acc => if data.length ≤ off then some (acc, off) else none
  | fuel + 1, off, acc =>
    if data.length ≤ off then some (acc, off)
    else
      match decodeTermBlock data off with
      | none => none
      | some (entry, off') => decodeTermsLoop data fuel off' (acc ++ [entry])

/-- `Decode`: header, document statistics, then the posting block; only
on full success is `PostingsList` replaced.  `.inl` represents a Go
panic, carrying the fields mutated before the failing read. -/
def InvertedIndex.Decode (idx : InvertedIndex) (data : List Nat) :
    Sum InvertedIndex InvertedIndex :=
  match decodeHeader idx data 0 with
  | .inl bad => .inl bad
  | .inr (idx₁, off₁) =>
    match decodeDocStats idx₁ data off₁ with
    | .inl bad => .inl bad
    | .inr (idx₂, off₂) =>
      match decodeTermsLoop data data.length off₂ [] with
      | none => .inl idx₂
      | some (recovered, _) => .inr { idx₂ with PostingsList := recovered }

/-! ### Live skip list (`skiplist.go`) for the insertion claims

For `Insert` the pointer structure matters, so here a skip list is its
level-0 node sequence together with each node's tower height (the head
sentinel is kept implicit).  In a well-formed list — which `linkNode`
maintains — the `Tower[level]` pointer of a node is exactly the next
node in level-0 order whose height exceeds `level` (`nil` when none),
and that is how `towerNext` interprets the structure. -/

/-- One stored node: its key and the height `randomHeight()` gave it. -/
structure SkipNode : Type where
  Key : Position
  height : Nat
  deriving DecidableEq, Repr

/-- A skip list: stored nodes in level-0 order (head omitted) and the
`Height` field. -/
structure SkipList : Type where
  nodes : List SkipNode
  Height : Nat
  deriving DecidableEq, Repr

/-- `NewSkipList()`: no nodes, height 1. -/
def NewSkipList : SkipList := { nodes := [], Height := 1 }

/-- Index of the first node at or after `start` taller than `level`. -/
def firstTaller (nodes : List SkipNode) (start level : Nat) : Option Nat :=
  ((nodes.drop start).findIdx? (fun n => level < n.height)).map (· + start)

/-- The `Tower[level]` pointer of position `cur` (`none` = head, `some i`
= the i-th stored node), as maintained by `linkNode`: the next taller
node, and `nil` above the node's own height. -/
def towerNext (nodes : List SkipNode) (cur : Option Nat) (level : Nat) :
    Option Nat :=
  match cur with
  | none => firstTaller nodes 0 level
  | some i =>
    if level < ((nodes.get? i).map SkipNode.height).getD 0 then
      firstTaller nodes (i + 1) level
    else none

/-- `shouldAdvance`: move to the next node only while strictly below the
target. -/
def shouldAdvance (nodeKey targetKey : Position) : Bool :=
  if nodeKey.Equals targetKey then false else nodeKey.IsBefore targetKey

/-- `traverseLevel`: follow `Tower[level]` pointers while
`shouldAdvance` holds.  Pointers always move forward, so `fuel =
nodes.length + 1` always completes the walk. -/
def traverseLevelAux (nodes : List SkipNode) (target : Position)
    (level : Nat) : Nat → Option Nat → Option Nat
  | 0, cur => cur
  | fuel + 1, cur =>
    match towerNext nodes cur level with
    | none => cur
    | some j =>
      match nodes.get? j with
      | none => cur
      | some n =>
        if shouldAdvance n.Key target then
          traverseLevelAux nodes target level fuel (some j)
        else cur

/-- The levels of `Search`'s journey, from `Height - 1` down to `0`;
returns the final `current`, i.e. the level-0 predecessor recorded in
`journey[0]`. -/
def searchLoop (nodes : List SkipNode) (target : Position) :
    Nat → Option Nat → Option Nat
  | 0, cur => cur
  | count + 1, cur =>
    searchLoop nodes target count
      (traverseLevelAux nodes target count (nodes.length + 1) cur)

/-- `Search`: the exact-match node index (if any) and the level-0
predecessor. -/
def SkipList.Search (sl : SkipList) (key : Position) :
    Option Nat × Option Nat :=
  let journey0 := searchLoop sl.nodes key sl.Height none
  let next := towerNext sl.nodes journey0 0
  match next with
  | none => (none, journey0)
  | some j =>
    match sl.nodes.get? j with
    | none => (none, journey0)
    | some n => if n.Key.Equals key then (some j, journey0) else (none, journey0)

/-- `Insert` with the height `randomHeight()` drew for the (potential)
new node.  An existing key is overwritten in place (`found.Key = key`);
otherwise `linkNode` splices the node right after the level-0
predecessor, and the list height grows to the node's height if larger. -/
def SkipList.Insert (sl : SkipList) (key : Position) (newHeight : Nat) :
    SkipList :=
  match sl.Search key with
  | (some j, _) =>
    { sl with
      nodes := sl.nodes.set j { (sl.nodes.get? j).getD ⟨key, 1⟩ with Key := key } }
  | (none, journey0) =>
    let at_ := match journey0 with
      | none => 0
      | some i => i + 1
    { nodes := sl.nodes.insertIdx at_ ⟨key, newHeight⟩,
      Height := if sl.Height < newHeight then newHeight else sl.Height }

/-- Keys stored in a skip list, in level-0 order. -/
def SkipList.keys (sl : SkipList) : List Position :=
  sl.nodes.map SkipNode.Key

/-- Well-formedness of a live skip list: strictly ascending keys, every
height positive (as `randomHeight() ≥ 1` guarantees), positive list
height. -/
def SkipList.WF (sl : SkipList) : Prop :=
  sl.keys.Chain' (fun a b => a.IsBefore b = true) ∧
  (∀ n ∈ sl.nodes, 1 ≤ n.height) ∧ 1 ≤ sl.Height

/-! ### Derived sets for the boolean-query claims -/

/-- The universe used by `negateBitmap`: every document id with
statistics, as `uint32` values. -/
def docUniverse (idx : InvertedIndex) : Finset ℕ :=
  (idx.DocStats.map (fun e => (e.1.toNat : ℕ))).toFinset

/-- The document-id set of a raw query term: the bitmap of its first
analyzed token (empty when the term analyzes to nothing or is
unknown). -/
def termDocSet (stem : String → String) (idx : InvertedIndex)
    (s : String) : Finset ℕ :=
  match Analyze stem s with
  | [] => ∅
  | t :: _ => getTermBitmap idx t

/-- Three-document corpus for the boolean-query claims: doc 1 has
`python`, doc 2 has `python` and `snake`, doc 3 has `snake`. -/
def qidx : InvertedIndex :=
  { DocBitmaps := [("python", {1, 2}), ("snake", {2, 3})],
    PostingsList :=
      [("python", [⟨0, 0, [2]⟩, ⟨1, 0, [3]⟩, ⟨2, 0, [0]⟩]),
       ("snake", [⟨0, 0, [2]⟩, ⟨2, 1, [3]⟩, ⟨3, 0, [0]⟩])],
    DocStats :=
      [(1, ⟨1, 1, [("python", 1)]⟩),
       (2, ⟨2, 2, [("python", 1), ("snake", 1)]⟩),
       (3, ⟨3, 1, [("snake", 1)]⟩)],
    TotalDocs := 3, TotalTerms := 4,
    BM25Params := DefaultBM25Parameters }

/-- Index holding `fox` at (1,0) and `one` at (1,1) — the state produced
by indexing the document `"fox ones"` (the Snowball stemmer maps `ones`
to the stopword `one`, and the index stores whatever the stemmer
emits). -/
def pidx : InvertedIndex :=
  { DocBitmaps := [("fox", {1}), ("one", {1})],
    PostingsList :=
      [("fox", [⟨0, 0, [2]⟩, ⟨1, 0, [0]⟩]),
       ("one", [⟨0, 0, [2]⟩, ⟨1, 1, [0]⟩])],
    DocStats := [(1, ⟨1, 2, [("fox", 1), ("one", 1)]⟩)],
    TotalDocs := 1, TotalTerms := 2,
    BM25Params := DefaultBM25Parameters }

/-- Two indistinguishable documents (each is the single term `machin`),
so their BM25 scores are equal for any query mentioning that term. -/
def bidx : InvertedIndex :=
  { DocBitmaps := [("machin", {1, 2})],
    PostingsList := [("machin", [⟨0, 0, [2]⟩, ⟨1, 0, [3]⟩, ⟨2, 0, [0]⟩])],
    DocStats :=
      [(1, ⟨1, 1, [("machin", 1)]⟩), (2, ⟨2, 1, [("machin", 1)]⟩)],
    TotalDocs := 2, TotalTerms := 2,
    BM25Params := DefaultBM25Parameters }

/-- Corpus where the lower-numbered document scores lower: in doc 1 the
terms `machin`/`learn` sit five offsets apart (cover width 6), in doc 2
they are adjacent (cover width 2). -/
def pxidx : InvertedIndex :=
  { DocBitmaps := [("machin", {1, 2}), ("learn", {1, 2})],
    PostingsList :=
      [("machin", [⟨0, 0, [2]⟩, ⟨1, 0, [3]⟩, ⟨2, 0, [0]⟩]),
       ("learn", [⟨0, 0, [2]⟩, ⟨1, 5, [3]⟩, ⟨2, 1, [0]⟩])],
    DocStats :=
      [(1, ⟨1, 6, [("machin", 1), ("learn", 1)]⟩),
       (2, ⟨2, 2, [("machin", 1), ("learn", 1)]⟩)],
    TotalDocs := 2, TotalTerms := 8,
    BM25Params := DefaultBM25Parameters }

/-- One-document index for the round-trip claims: the single match it
produces keeps the BM25 pipeline free of score comparisons. -/
def c2idx : InvertedIndex :=
  { DocBitmaps := [("machin", {1})],
    PostingsList := [("machin", [⟨0, 0, [2]⟩, ⟨1, 0, [0]⟩])],
    DocStats := [(1, ⟨1, 1, [("machin", 1)]⟩)],
    TotalDocs := 1, TotalTerms := 1,
    BM25Params := DefaultBM25Parameters }

/-- The index produced by decoding `c2idx`'s encoding into a fresh
index (the decode succeeds, see `claim_C2_bug`). -/
def c2decoded : InvertedIndex :=
  (NewInvertedIndex.Decode c2idx.Encode).elim (fun e => e) (fun e => e)

/-- Concrete two-node skip list (keys (1,0) and (1,5), heights 1 and 2)
for instantiating the insertion claim. -/
def wsl : SkipList :=
  { nodes := [⟨⟨Coord.val 1, Coord.val 0⟩, 1⟩, ⟨⟨Coord.val 1, Coord.val 5⟩, 2⟩],
    Height := 2 }

/-- The stored occurrence list of a token, in level-0 (ascending) order:
the keys of the token's posting list after the sentinel head. -/
def occurrences (idx : InvertedIndex) (t : String) : List Position :=
  match idx.getPostingList t with
  | none => []
  | some nodes => postingKeys nodes

/-- A position with two integer coordinates — the shape of every stored
position. -/
def finitePos (p : Position) : Prop :=
  ∃ d o, p = ⟨Coord.val d, Coord.val o⟩

/-- Non-strict position order. -/
def posLE (p q : Position) : Prop := p = q ∨ p.IsBefore q = true

/-- The tower list `Decode` reconstructs for a node: the encoded
non-nil prefix, or the single `0` entry written for an empty tower. -/
def normTower (tw : List Nat) : List Nat :=
  if ((tw.take 32).takeWhile (fun i => i ≠ 0)).length = 0 then [0]
  else (tw.take 32).takeWhile (fun i => i ≠ 0)

/-- The node `Decode` reconstructs: coordinates through the
`uint32`/`int32` round trip, tower normalized. -/
def normNode (n : WNode) : WNode :=
  ⟨intOfU32 (u32OfInt n.docID), intOfU32 (u32OfInt n.offset),
    normTower n.tower⟩

/-- The per-document statistics `Decode` reconstructs. -/
def normStat (st : DocumentStats) : DocumentStats :=
  ⟨(u32OfInt st.DocID : Int), (u32OfInt st.Length : Int),
    st.TermFreqs.map (fun f => (f.1, (u32OfInt f.2 : Int)))⟩

/-- The index `Decode` builds into `target` from `idx.Encode`: the
target keeps only its `DocBitmaps`; everything else is the encoded
content read back. -/
def normalizeInto (target idx : InvertedIndex) : InvertedIndex :=
  { DocBitmaps := target.DocBitmaps,
    PostingsList := idx.PostingsList.map (fun e => (e.1, e.2.map normNode)),
    DocStats := idx.DocStats.map
      (fun e => ((u32OfInt e.2.DocID : Int), normStat e.2)),
    TotalDocs := (u32OfInt idx.TotalDocs : Int),
    TotalTerms := intOfU64 (u64OfInt idx.TotalTerms),
    BM25Params := ⟨idx.BM25Params.K1bits % 2 ^ 64,
      idx.BM25Params.Bbits % 2 ^ 64⟩ }

/-- `pidx` with its posting-list map enumerated in the opposite order:
the same Go map contents, another of Go's unspecified iteration
orders. -/
def pidxrev : InvertedIndex :=
  { pidx with PostingsList := pidx.PostingsList.reverse }

/-! ## Theorems -/

namespace Coord

theorem eqb_iff (a b : Coord) : eqb a b = true ↔ a = b := by
  simp [eqb]

end Coord

namespace Coord

theorem eqb_comm (a b : Coord) : eqb a b = eqb b a := by
  simp only [eqb, decide_eq_decide]
  exact eq_comm

end Coord

namespace Coord

theorem ltb_irrefl (a : Coord) : ltb a a = false := by
  cases a <;> simp [ltb]

end Coord

namespace Coord

theorem ltb_trans {a b c : Coord} (h₁ : ltb a b = true) (h₂ : ltb b c = true) :
    ltb a c = true := by
  cases a <;> cases b <;> cases c <;> simp_all [ltb]
  omega

end Coord

namespace Coord

theorem ltb_trichotomy (a b : Coord) :
    ltb a b = true ∨ a = b ∨ ltb b a = true := by
  cases a <;> cases b <;> simp_all [ltb]
  omega

end Coord

namespace Coord

theorem ltb_asymm {a b : Coord} (h : ltb a b = true) : ltb b a = false := by
  cases a <;> cases b <;> simp_all [ltb]
  omega

end Coord

namespace Position

theorem equals_iff (p q : Position) : Equals p q = true ↔ p = q := by
  cases p; cases q
  simp [Equals, Coord.eqb_iff, Position.mk.injEq, Bool.and_eq_true]

end Position

namespace Position

theorem isBefore_iff (p q : Position) :
    IsBefore p q = true ↔
      (Coord.ltb p.DocumentID q.DocumentID = true ∨
        (p.DocumentID = q.DocumentID ∧ Coord.ltb p.Offset q.Offset = true)) := by
  unfold IsBefore
  split
  · next h => simp [h]
  · next h => simp [h, Coord.eqb_iff]

end Position

namespace Position

theorem isBefore_asymm {p q : Position} (h : IsBefore p q = true) :
    IsBefore q p = false := by
  rw [isBefore_iff] at h
  by_contra hc
  rw [Bool.not_eq_false, isBefore_iff] at hc
  rcases h with h | ⟨he, h⟩ <;> rcases hc with hc | ⟨he', hc⟩
  · exact absurd (Coord.ltb_trans h hc) (by simp [Coord.ltb_irrefl])
  · rw [he'] at h; simp [Coord.ltb_irrefl] at h
  · rw [he] at hc; simp [Coord.ltb_irrefl] at hc
  · exact absurd (Coord.ltb_trans h hc) (by simp [Coord.ltb_irrefl])

end Position

namespace Position

theorem isBefore_trans {p q r : Position} (h₁ : IsBefore p q = true)
    (h₂ : IsBefore q r = true) : IsBefore p r = true := by
  rw [isBefore_iff] at *
  rcases h₁ with h₁ | ⟨he₁, h₁⟩ <;> rcases h₂ with h₂ | ⟨he₂, h₂⟩
  · exact Or.inl (Coord.ltb_trans h₁ h₂)
  · exact Or.inl (he₂ ▸ h₁)
  · exact Or.inl (he₁ ▸ h₂)
  · exact Or.inr ⟨he₁.trans he₂, Coord.ltb_trans h₁ h₂⟩

end Position

namespace Position

theorem isBefore_total (p q : Position) :
    IsBefore p q = true ∨ p = q ∨ IsBefore q p = true := by
  rcases p with ⟨pd, po⟩; rcases q with ⟨qd, qo⟩
  rcases Coord.ltb_trichotomy pd qd with h | h | h
  · left; rw [isBefore_iff]; exact Or.inl h
  · subst h
    rcases Coord.ltb_trichotomy po qo with h' | h' | h'
    · left; rw [isBefore_iff]; exact Or.inr ⟨rfl, h'⟩
    · right; left; rw [h']
    · right; right; rw [isBefore_iff]; exact Or.inr ⟨rfl, h'⟩
  · right; right; rw [isBefore_iff]; exact Or.inl h

end Position

namespace Position

theorem isBefore_irrefl (p : Position) : IsBefore p p = false := by
  by_contra hc
  rw [Bool.not_eq_false, isBefore_iff] at hc
  rcases hc with hc | ⟨_, hc⟩ <;> simp [Coord.ltb_irrefl] at hc

end Position

namespace Position

theorem isAfter_eq_isBefore (p q : Position) : IsAfter p q = IsBefore q p := by
  rcases p with ⟨pd, po⟩; rcases q with ⟨qd, qo⟩
  simp only [IsAfter, IsBefore]
  split
  · rfl
  · next h =>
    rw [Coord.eqb_comm]

end Position

theorem analyze_length_eq (stem : String → String) (text : String) :
    (Analyze stem text).length = analyzeLength text := by
  simp [Analyze, AnalyzeWithConfig, analyzeLength, DefaultConfig, stemmerFilter]

/-! ### Shared list lemmas -/

theorem foldl_append_filter {α : Type} (p : α → Bool) (l : List α)
    (acc : List α) :
    l.foldl (fun r t => if p t then r ++ [t] else r) acc = acc ++ l.filter p := by
  induction l generalizing acc with
  | nil => simp
  | cons x rest ih =>
    simp only [List.foldl_cons, List.filter_cons]
    by_cases hx : p x
    · simp [hx, ih]
    · simp [hx, ih]

theorem foldl_append_filter_prop {α : Type} (p : α → Prop) [DecidablePred p]
    (l : List α) (acc : List α) :
    l.foldl (fun r t => if p t then r ++ [t] else r) acc =
      acc ++ l.filter (fun t => decide (p t)) := by
  induction l generalizing acc with
  | nil => simp
  | cons x rest ih =>
    simp only [List.foldl_cons, List.filter_cons]
    by_cases hx : p x
    · simp [hx, ih]
    · simp [hx, ih]

theorem stopwordFilter_eq_filter (tokens : List String) :
    stopwordFilter tokens = tokens.filter (fun t => !isStopword t) := by
  unfold stopwordFilter
  have h := foldl_append_filter (fun t => !isStopword t) tokens []
  simp only [List.nil_append] at h
  exact h

theorem lengthFilter_eq_filter (tokens : List String) (minLength : Int) :
    lengthFilter tokens minLength =
      tokens.filter (fun t => minLength ≤ (t.utf8ByteSize : Int)) := by
  unfold lengthFilter
  have h :=
    foldl_append_filter_prop
      (fun t : String => minLength ≤ (t.utf8ByteSize : Int)) tokens []
  simp only [List.nil_append] at h
  exact h

/-! ### Claim C8 -/

/-- Claim C8, `corrected`: the length-filter stage of the analyzer keeps
exactly the tokens whose **UTF-8 byte length** is at least
`MinTokenLength` (not their length in Unicode code points, as the claim
states), and it runs after stopword filtering and before stemming. -/
theorem claim_C8_amended (stem : String → String) (text : String)
    (cfg : AnalyzerConfig) :
    AnalyzeWithConfig stem text cfg =
      (if cfg.EnableStemming then stemmerFilter stem else id)
        (((if cfg.EnableStopwords then stopwordFilter else id)
            (lowercaseFilter (tokenize text))).filter
          (fun t => cfg.MinTokenLength ≤ (t.utf8ByteSize : Int))) := by
  unfold AnalyzeWithConfig
  by_cases hsw : cfg.EnableStopwords <;> by_cases hst : cfg.EnableStemming <;>
    simp [hsw, hst, lengthFilter_eq_filter]

/-- Claim C8 as stated is false on the code: with `min_token_length = 2`
(and stemming off so the external stemmer is irrelevant) the analyzer
keeps the token `"é"`, which is a single Unicode code point — fewer than
2 — because its UTF-8 encoding is 2 bytes. -/
theorem claim_C8_counterexample :
    AnalyzeWithConfig (fun s => s) "é"
        { MinTokenLength := 2, EnableStemming := false,
          EnableStopwords := true } = ["é"] ∧
      ("é".length : Int) < 2 := by
  constructor
  · decide
  · decide

theorem lookupStr_mem {α : Type} {l : List (String × α)} {k : String}
    {v : α} (h : lookupStr l k = some v) : (k, v) ∈ l := by
  induction l with
  | nil => simp [lookupStr] at h
  | cons e rest ih =>
    simp only [lookupStr] at h
    split at h
    · next he =>
      cases h
      cases e
      subst he
      exact List.mem_cons_self _ _
    · exact List.mem_cons_of_mem _ (ih h)

/-! ### Claim C9 -/

/-- Claim C9, `corrected`: `AllOf`/`AnyOf` are literally the recorded
`Term/And/Or/Execute` chains, and `TermExcluding` computes
`docs(A) ∩ (universe \ docs(B))` — which matches the claimed membership
rule whenever the query-term bitmaps only mention documents with
statistics (true of every index built by `Index`) and the excluded term
analyzes to at least one token.  (When `analyze(B)` is empty the source
pushes an **un-negated empty** bitmap and the result is empty, not
`docs(A)`; see the counterexample.) -/
theorem claim_C9_amended (stem : String → String) (idx : InvertedIndex)
    (A B : String)
    (huniv : ∀ e ∈ idx.DocBitmaps, e.2 ⊆ docUniverse idx) :
    AllOf stem idx [A, B] =
      (((NewQueryBuilder.Term stem idx A).And).Term stem idx B).Execute ∧
    AnyOf stem idx [A, B] =
      (((NewQueryBuilder.Term stem idx A).Or).Term stem idx B).Execute ∧
    (Analyze stem B ≠ [] →
      ∀ d : ℕ, d ∈ TermExcluding stem idx A B ↔
        d ∈ termDocSet stem idx A ∧ d ∉ termDocSet stem idx B) := by
  refine ⟨rfl, rfl, ?_⟩
  intro hB d
  match hBeq : Analyze stem B with
  | [] => exact absurd hBeq hB
  | b :: brest =>
    match hAeq : Analyze stem A with
    | [] =>
      have hres : TermExcluding stem idx A B = ∅ := by
        simp [TermExcluding, QueryBuilder.Term, NewQueryBuilder, hAeq, hBeq,
          QueryBuilder.And, QueryBuilder.Not, QueryBuilder.pushBitmap,
          QueryBuilder.Execute, executeLoop]
      rw [hres]
      simp [termDocSet, hAeq]
    | a :: arest =>
      have hsub : getTermBitmap idx a ⊆ docUniverse idx := by
        unfold getTermBitmap
        match hbm : lookupStr idx.DocBitmaps a with
        | none => simp
        | some bm =>
          simpa using huniv (a, bm) (lookupStr_mem hbm)
      have hres : TermExcluding stem idx A B =
          getTermBitmap idx a ∩ (docUniverse idx \ getTermBitmap idx b) := by
        simp [TermExcluding, QueryBuilder.Term, NewQueryBuilder, hAeq, hBeq,
          QueryBuilder.And, QueryBuilder.Not, QueryBuilder.pushBitmap,
          QueryBuilder.Execute, executeLoop, negateBitmap, docUniverse]
      rw [hres]
      simp only [termDocSet, hAeq, hBeq, Finset.mem_inter, Finset.mem_sdiff]
      constructor
      · rintro ⟨hda, -, hdb⟩
        exact ⟨hda, hdb⟩
      · rintro ⟨hda, hdb⟩
        exact ⟨hda, hsub hda, hdb⟩

/-- Instantiation of `claim_C9_amended` on the three-document corpus
with the terms `python`/`snake`, all hypotheses discharged. -/
theorem claim_C9_witness :
    1 ∈ TermExcluding (fun s => s) qidx "python" "snake" ↔
      1 ∈ termDocSet (fun s => s) qidx "python" ∧
        1 ∉ termDocSet (fun s => s) qidx "snake" :=
  (claim_C9_amended (fun s => s) qidx "python" "snake"
    (by decide)).2.2 (by decide) 1

/-- Claim C9 as stated is false when the excluded term analyzes to no
tokens: excluding the stopword `"the"` yields the empty result, although
document 1 is in `docs("python")` and not in `docs("the")`. -/
theorem claim_C9_counterexample :
    TermExcluding (fun s => s) qidx "python" "the" = ∅ ∧
      1 ∈ termDocSet (fun s => s) qidx "python" ∧
      1 ∉ termDocSet (fun s => s) qidx "the" := by
  refine ⟨?_, by decide, by decide⟩
  decide

/-! ### Claim C6 -/

/-- Claim C6, `corrected`: any non-EOF result of `NextPhrase` has both
endpoints in the same document with offsets exactly
`len(strings.Fields(query)) - 1` apart — the query is split on
whitespace by `strings.Fields`, **not** run through the analysis
pipeline as the claim states. -/
theorem claim_C6_amended (idx : InvertedIndex) (query : String)
    (p : Position) (fuel : Nat) :
    NextPhrase idx query p fuel = (EOFDocument, EOFDocument) ∨
      ((NextPhrase idx query p fuel).1.DocumentID =
          (NextPhrase idx query p fuel).2.DocumentID ∧
        (NextPhrase idx query p fuel).2.GetOffset -
            (NextPhrase idx query p fuel).1.GetOffset =
          ((stringsFields query).length : Int) - 1) := by
  induction fuel generalizing p with
  | zero => exact Or.inl rfl
  | succ fuel ih =>
    rw [NextPhrase]
    split
    · exact Or.inl rfl
    · dsimp only
      split
      · next hvalid =>
        simp only [isValidPhrase, Bool.and_eq_true, Coord.eqb_iff,
          beq_iff_eq] at hvalid
        refine Or.inr ?_
        dsimp only
        exact ⟨hvalid.1, by omega⟩
      · exact ih _

/-- Claim C6 as stated is false on the code: on the index for the
document `"fox ones"` (whose analyzed tokens are `fox` and `one`), the
query `"fox one"` analyzes to the single token `fox` (the default
pipeline drops the stopword `one`), yet `NextPhrase` — which splits the
query on whitespace instead — returns a phrase whose endpoints are one
offset apart, not `1 - 1 = 0`. -/
theorem claim_C6_counterexample :
    NextPhrase pidx "fox one" BOFDocument 10 =
      (⟨Coord.val 1, Coord.val 0⟩, ⟨Coord.val 1, Coord.val 1⟩) ∧
      analyzeLength "fox one" = 1 := by
  constructor
  · decide
  · decide

/-! ### Claim C5 -/

theorem mem_insertByScore {y m : Match} {l : List Match} :
    y ∈ insertByScore m l ↔ y = m ∨ y ∈ l := by
  induction l with
  | nil => simp [insertByScore]
  | cons x rest ih =>
    rw [insertByScore]
    split
    · simp only [List.mem_cons, ih]
      tauto
    · simp only [List.mem_cons]


theorem pairwise_insertByScore (m : Match) (l : List Match)
    (h : l.Pairwise (fun a b => b.Score ≤ a.Score)) :
    (insertByScore m l).Pairwise (fun a b => b.Score ≤ a.Score) := by
  induction l with
  | nil => simp [insertByScore]
  | cons x rest ih =>
    rw [insertByScore]
    rcases List.pairwise_cons.mp h with ⟨hx, hrest⟩
    split
    · next hlt =>
      refine List.pairwise_cons.mpr ⟨?_, ih hrest⟩
      intro y hy
      rcases mem_insertByScore.mp hy with rfl | hy'
      · exact le_of_lt hlt
      · exact hx y hy'
    · next hge =>
      refine List.pairwise_cons.mpr ⟨?_, h⟩
      intro y hy
      rcases List.mem_cons.mp hy with rfl | hy'
      · exact le_of_not_lt hge
      · exact le_trans (hx y hy') (le_of_not_lt hge)

theorem pairwise_sortMatchesByScore (l : List Match) :
    (sortMatchesByScore l).Pairwise (fun a b => b.Score ≤ a.Score) := by
  induction l with
  | nil => simp [sortMatchesByScore]
  | cons x rest ih => exact pairwise_insertByScore x _ ih

/-- Claim C5, `corrected`: for any enumeration order of the candidate
map, `RankBM25` returns matches in non-increasing score order.  The
rest of the claim fails: results are deterministic only up to the order
of equal scores, which is inherited from Go's unspecified map iteration
order and is **not** broken by ascending `doc_id` (see the
counterexample). -/
theorem claim_C5_amended (stem : String → String) (log : ℚ → ℚ)
    (idx : InvertedIndex) (query : String) (maxResults : Nat)
    (docOrder : List Int) :
    (RankBM25 stem log idx query maxResults docOrder).Pairwise
      (fun a b => b.Score ≤ a.Score) := by
  unfold RankBM25
  dsimp only
  split
  · simp
  · exact ((pairwise_sortMatchesByScore _).sublist
      (by simpa [limitResults] using List.take_sublist _ _)).imp (fun h => h)

/-- Claim C5 as stated is false on the code: the two documents of
`bidx` tie on score, and the result order follows the candidate-map
iteration order (`docOrder`), which Go leaves unspecified — two runs of
the same query on the same index may return `[doc 2, doc 1]` or
`[doc 1, doc 2]`, so the result is neither deterministic nor tie-broken
by ascending `doc_id`. -/
theorem claim_C5_counterexample :
    (RankBM25 (fun s => s) (fun q => q) bidx "machin" 10 [2, 1]).map
        Match.DocID = [2, 1] ∧
      (RankBM25 (fun s => s) (fun q => q) bidx "machin" 10 [1, 2]).map
        Match.DocID = [1, 2] ∧
      (RankBM25 (fun s => s) (fun q => q) bidx "machin" 10 [2, 1]).map
        Match.Score =
        (RankBM25 (fun s => s) (fun q => q) bidx "machin" 10 [1, 2]).map
          Match.Score := by
  have htok : Analyze (fun s : String => s) "machin" = ["machin"] := by decide
  have hs1 : calculateBM25Score (fun q : ℚ => q) bidx 1 ["machin"] = 6 / 5 := by
    norm_num [calculateBM25Score, calculateIDF, lookupInt, lookupStr, bidx,
      qOfFloatBits, float64Bits15, float64Bits075, DefaultBM25Parameters]
  have hs2 : calculateBM25Score (fun q : ℚ => q) bidx 2 ["machin"] = 6 / 5 := by
    norm_num [calculateBM25Score, calculateIDF, lookupInt, lookupStr, bidx,
      qOfFloatBits, float64Bits15, float64Bits075, DefaultBM25Parameters]
  have hrun : ∀ a b : Int, a = 1 ∨ a = 2 → b = 1 ∨ b = 2 →
      RankBM25 (fun s => s) (fun q => q) bidx "machin" 10 [a, b] =
        [⟨a, candidatePositions bidx ["machin"] a, 6 / 5⟩,
         ⟨b, candidatePositions bidx ["machin"] b, 6 / 5⟩] := by
    intro a b ha hb
    have hsa : calculateBM25Score (fun q : ℚ => q) bidx a ["machin"] = 6 / 5 := by
      rcases ha with rfl | rfl
      · exact hs1
      · exact hs2
    have hsb : calculateBM25Score (fun q : ℚ => q) bidx b ["machin"] = 6 / 5 := by
      rcases hb with rfl | rfl
      · exact hs1
      · exact hs2
    simp only [RankBM25, htok]
    norm_num [hsa, hsb, sortMatchesByScore, insertByScore, limitResults]
  rw [hrun 2 1 (by omega) (by omega), hrun 1 2 (by omega) (by omega)]
  refine ⟨rfl, rfl, rfl⟩

/-! ### Claim C1 -/

set_option maxHeartbeats 1000000 in
/-- Claim C1, `code_bug`: `RankProximity` groups covers per document and
scores them as the claim says, but it never sorts — the matches come
back in ascending document order whatever their scores.  On `pxidx` the
query `"machin learn"` returns doc 1 (score `1/6`) **before** doc 2
(score `1/2`), although the function's own documentation ("Result: …
sorted by score") and the specification require descending score order.
The source also never fills `Match.DocID` (it stays Go's zero value). -/
theorem claim_C1_bug :
    RankProximity (fun s => s) pxidx "machin learn" 10 20 =
      [⟨0, [⟨Coord.val 1, Coord.val 0⟩, ⟨Coord.val 1, Coord.val 5⟩], 1 / 6⟩,
       ⟨0, [⟨Coord.val 2, Coord.val 0⟩, ⟨Coord.val 2, Coord.val 1⟩], 1 / 2⟩] ∧
      (1 : ℚ) / 6 < 1 / 2 := by
  have htok : Analyze (fun s : String => s) "machin learn" =
      ["machin", "learn"] := by decide
  refine ⟨?_, by norm_num⟩
  have key : limitResults (collectProximityMatches pxidx ["machin", "learn"] 20) 10 =
      [⟨0, [⟨Coord.val 1, Coord.val 0⟩, ⟨Coord.val 1, Coord.val 5⟩],
        0 + 1 / coverWidthQ ⟨Coord.val 1, Coord.val 0⟩ ⟨Coord.val 1, Coord.val 5⟩⟩,
       ⟨0, [⟨Coord.val 2, Coord.val 0⟩, ⟨Coord.val 2, Coord.val 1⟩],
        0 + 1 / coverWidthQ ⟨Coord.val 2, Coord.val 0⟩ ⟨Coord.val 2, Coord.val 1⟩⟩] := rfl
  simp only [RankProximity, htok]
  norm_num [key, coverWidthQ]

/-! ### Claim C4 -/

/-- Claim C4, `code_bug`: on corrupt input `Decode` neither reports an
error nor leaves the target unmodified.  Every failing bounds check is a
Go slice-expression panic (`.inl` here), never a returned decode error
(the Go function's `error` result is unconditionally `nil`), and the
panic strikes after the decoder has already overwritten fields in
place: decoding a 36-byte input holding a header and a doc-stats count
of 1 but no record leaves `pxidx` with its header fields replaced and
its `DocStats` map erased. -/
theorem claim_C4_bug :
    pxidx.Decode ([9, 0, 0, 0] ++ List.replicate 24 0 ++ [1, 0, 0, 0]) =
      .inl { pxidx with
             TotalDocs := 9, TotalTerms := 0,
             BM25Params := ⟨0, 0⟩, DocStats := [] } ∧
    pxidx.TotalDocs = 2 ∧ pxidx.DocStats ≠ [] := by decide

/-! ### Claim C2 -/

/-- Claim C2, `code_bug`: the decoder never rebuilds the per-term
document-id sets.  `Decode` only assigns `TotalDocs`, `TotalTerms`, the
BM25 parameters, `DocStats` and `PostingsList`; no code path scans the
decoded positions into `DocBitmaps`, which stays empty.  Since
`RankBM25` draws its candidate documents from `DocBitmaps`, the query
`"machin"` that returned document 1 (score `4/3`) before the round trip
returns nothing afterwards, contradicting the claimed score-by-score
equality. -/
theorem claim_C2_bug :
    NewInvertedIndex.Decode c2idx.Encode = .inr c2decoded ∧
    c2decoded.DocBitmaps = [] ∧
    c2idx.DocBitmaps ≠ [] ∧
    c2decoded.PostingsList = c2idx.PostingsList ∧
    RankBM25 (fun q => q) (fun x => x) c2idx "machin" 10 [1] =
      [⟨1, [⟨Coord.val 1, Coord.val 0⟩], 4 / 3⟩] ∧
    RankBM25 (fun q => q) (fun x => x) c2decoded "machin" 10 [1] = [] := by
  have htok : Analyze (fun q : String => q) "machin" = ["machin"] := by decide
  have hD : c2decoded =
      { DocBitmaps := [],
        PostingsList := [("machin", [⟨0, 0, [2]⟩, ⟨1, 0, [0]⟩])],
        DocStats := [(1, ⟨1, 1, [("machin", 1)]⟩)],
        TotalDocs := 1, TotalTerms := 1,
        BM25Params := DefaultBM25Parameters } := by decide
  refine ⟨by decide, by decide, by decide, by decide, ?_, ?_⟩
  · have hs : calculateBM25Score (fun x : ℚ => x) c2idx 1 ["machin"] = 4 / 3 := by
      norm_num [calculateBM25Score, calculateIDF, lookupInt, lookupStr, c2idx,
        qOfFloatBits, float64Bits15, float64Bits075, DefaultBM25Parameters]
    have hoff : candidatePositions c2idx ["machin"] 1 =
        [⟨Coord.val 1, Coord.val 0⟩] := by decide
    simp only [RankBM25, htok]
    norm_num [hs, hoff, sortMatchesByScore, insertByScore, limitResults]
  · have hs0 : calculateBM25Score (fun x : ℚ => x)
        { DocBitmaps := [],
          PostingsList := [("machin", [⟨0, 0, [2]⟩, ⟨1, 0, [0]⟩])],
          DocStats := [(1, ⟨1, 1, [("machin", 1)]⟩)],
          TotalDocs := 1, TotalTerms := 1,
          BM25Params := DefaultBM25Parameters } 1 ["machin"] = 0 := by
      norm_num [calculateBM25Score, calculateIDF, lookupInt, lookupStr,
        qOfFloatBits, float64Bits15, float64Bits075, DefaultBM25Parameters]
    rw [hD]
    simp only [RankBM25, htok]
    norm_num [hs0, sortMatchesByScore, limitResults]

/-! ### Skip-list search and insertion (claim C10) -/

/-- Setting a list entry to its current value is the identity. -/
theorem set_get_self : ∀ (l : List SkipNode) (i : Nat) (a : SkipNode),
    l.get? i = some a → l.set i a = l
  | [], _, _, h => by simp at h
  | x :: t, 0, a, h => by
    simp only [List.get?] at h
    cases h
    rfl
  | x :: t, i + 1, a, h => by
    simp only [List.get?] at h
    simp [set_get_self t i a h]

/-- In a key-sorted node list, earlier nodes' keys are strictly before
later ones'. -/
theorem sorted_keys_get {nodes : List SkipNode}
    (hsort : (nodes.map SkipNode.Key).Chain'
      (fun a b => Position.IsBefore a b = true)) :
    ∀ i j ni nj, i < j → nodes.get? i = some ni → nodes.get? j = some nj →
      Position.IsBefore ni.Key nj.Key = true := by
  haveI : IsTrans Position (fun a b => Position.IsBefore a b = true) :=
    ⟨fun _ _ _ => Position.isBefore_trans⟩
  have hp := List.pairwise_iff_get.mp (List.chain'_iff_pairwise.mp hsort)
  intro i j ni nj hij hi hj
  obtain ⟨hilt, higet⟩ := List.get?_eq_some.mp hi
  obtain ⟨hjlt, hjget⟩ := List.get?_eq_some.mp hj
  have hil : i < (nodes.map SkipNode.Key).length := by simpa using hilt
  have hjl : j < (nodes.map SkipNode.Key).length := by simpa using hjlt
  have h := hp ⟨i, hil⟩ ⟨j, hjl⟩ hij
  simp only [List.get_eq_getElem] at higet hjget
  simpa [higet, hjget] using h

/-- `shouldAdvance` from node `j` towards a stored key at index `m`
holds exactly when `j < m`. -/
theorem shouldAdvance_iff_lt {nodes : List SkipNode} {key : Position}
    {m : Nat} {nm : SkipNode}
    (hsort : (nodes.map SkipNode.Key).Chain'
      (fun a b => Position.IsBefore a b = true))
    (hm : nodes.get? m = some nm) (hkey : nm.Key = key) :
    ∀ j nj, nodes.get? j = some nj →
      (shouldAdvance nj.Key key = true ↔ j < m) := by
  intro j nj hj
  unfold shouldAdvance
  rcases lt_trichotomy j m with hlt | rfl | hgt
  · have hb := sorted_keys_get hsort j m nj nm hlt hj hm
    rw [hkey] at hb
    have hne : nj.Key.Equals key = false := by
      rcases he : nj.Key.Equals key with _ | _
      · rfl
      · rw [Position.equals_iff] at he
        rw [he, Position.isBefore_irrefl] at hb
        exact absurd hb (by simp)
    simp [hne, hb, hlt]
  · have : nj = nm := by
      have := hj.symm.trans hm
      exact Option.some.inj this
    subst this
    rw [hkey]
    have : Position.Equals key key = true := (Position.equals_iff key key).mpr rfl
    simp [this]
  · have hb := sorted_keys_get hsort m j nm nj hgt hm hj
    rw [hkey] at hb
    have hbf := Position.isBefore_asymm hb
    have hne : nj.Key.Equals key = false := by
      rcases he : nj.Key.Equals key with _ | _
      · rfl
      · rw [Position.equals_iff] at he
        rw [he, Position.isBefore_irrefl] at hb
        exact absurd hb (by simp)
    simp [hne, hbf]
    omega

/-- With every height positive, `firstTaller` at level 0 is just the
first index at or after `start`. -/
theorem firstTaller_zero {nodes : List SkipNode}
    (hh : ∀ n ∈ nodes, 1 ≤ n.height) (s : Nat) :
    firstTaller nodes s 0 = if s < nodes.length then some s else none := by
  unfold firstTaller
  rcases hd : nodes.drop s with _ | ⟨a, t⟩
  · have : nodes.length ≤ s := List.drop_eq_nil_iff.mp hd
    simp [if_neg (by omega : ¬ s < nodes.length)]
  · have ha : a ∈ nodes := by
      have : a ∈ nodes.drop s := by rw [hd]; exact List.mem_cons_self a t
      exact List.mem_of_mem_drop this
    have hpa : (0 : Nat) < a.height := hh a ha
    have hlen : s < nodes.length := by
      by_contra hc
      rw [List.drop_eq_nil_iff.mpr (by omega)] at hd
      exact List.noConfusion hd
    rw [List.findIdx?_cons]
    simp [hpa, hlen]

/-- `towerNext` from the head at level 0 is the first node. -/
theorem towerNext_none_zero {nodes : List SkipNode}
    (hh : ∀ n ∈ nodes, 1 ≤ n.height) :
    towerNext nodes none 0 = if 0 < nodes.length then some 0 else none := by
  unfold towerNext
  exact firstTaller_zero hh 0

/-- `towerNext` from a stored node at level 0 is its successor. -/
theorem towerNext_some_zero {nodes : List SkipNode}
    (hh : ∀ n ∈ nodes, 1 ≤ n.height) {i : Nat} {ni : SkipNode}
    (hi : nodes.get? i = some ni) :
    towerNext nodes (some i) 0 =
      if i + 1 < nodes.length then some (i + 1) else none := by
  unfold towerNext
  dsimp only
  rw [hi]
  have hpi : (0 : Nat) < ni.height := hh ni (List.get?_mem hi)
  simp only [Option.map_some', Option.getD_some, if_pos hpi]
  exact firstTaller_zero hh (i + 1)

/-- The level-0 traversal from any state left of a stored key stops at
the key's immediate predecessor (head when the key is first). -/
theorem traverse0_eq {nodes : List SkipNode} {key : Position}
    {m : Nat} {nm : SkipNode}
    (hsort : (nodes.map SkipNode.Key).Chain'
      (fun a b => Position.IsBefore a b = true))
    (hh : ∀ n ∈ nodes, 1 ≤ n.height)
    (hm : nodes.get? m = some nm) (hkey : nm.Key = key) :
    ∀ fuel (cur : Option Nat),
      (cur = none ∧ m ≤ fuel ∨ ∃ i, cur = some i ∧ i < m ∧ m ≤ fuel + i + 1) →
      traverseLevelAux nodes key 0 fuel cur =
        if m = 0 then none else some (m - 1) := by
  have hmlt : m < nodes.length := (List.get?_eq_some.mp hm).1
  intro fuel
  induction fuel with
  | zero =>
    intro cur h
    rcases h with ⟨rfl, hm0⟩ | ⟨i, rfl, hik, hbound⟩
    · rw [if_pos (by omega : m = 0)]
      rfl
    · rw [if_neg (by omega : ¬ m = 0)]
      have : i = m - 1 := by omega
      rw [this]
      rfl
  | succ fuel ih =>
    intro cur h
    rw [traverseLevelAux]
    rcases h with ⟨rfl, hmf⟩ | ⟨i, rfl, hik, hbound⟩
    · rw [towerNext_none_zero hh, if_pos (by omega : 0 < nodes.length)]
      obtain ⟨n0, h0g⟩ : ∃ n0, nodes.get? 0 = some n0 :=
        ⟨_, List.get?_eq_get (by omega : 0 < nodes.length)⟩
      dsimp only
      rw [h0g]
      dsimp only
      rcases Nat.eq_zero_or_pos m with rfl | hmpos
      · have hf : shouldAdvance n0.Key key = false := by
          rcases hb : shouldAdvance n0.Key key with _ | _
          · rfl
          · exact absurd ((shouldAdvance_iff_lt hsort hm hkey 0 n0 h0g).mp hb)
              (by omega)
        rw [hf]
        simp
      · have ht : shouldAdvance n0.Key key = true :=
          (shouldAdvance_iff_lt hsort hm hkey 0 n0 h0g).mpr hmpos
        rw [ht]
        simp only [if_true]
        exact ih (some 0) (Or.inr ⟨0, rfl, hmpos, by omega⟩)
    · obtain ⟨ni, hig⟩ : ∃ ni, nodes.get? i = some ni :=
        ⟨_, List.get?_eq_get (by omega : i < nodes.length)⟩
      rw [towerNext_some_zero hh hig, if_pos (by omega : i + 1 < nodes.length)]
      obtain ⟨ni', hig'⟩ : ∃ ni', nodes.get? (i + 1) = some ni' :=
        ⟨_, List.get?_eq_get (by omega : i + 1 < nodes.length)⟩
      dsimp only
      rw [hig']
      dsimp only
      rcases Nat.lt_or_ge (i + 1) m with hlt | hge
      · have ht : shouldAdvance ni'.Key key = true :=
          (shouldAdvance_iff_lt hsort hm hkey (i + 1) ni' hig').mpr hlt
        rw [ht]
        simp only [if_true]
        exact ih (some (i + 1)) (Or.inr ⟨i + 1, rfl, hlt, by omega⟩)
      · have hf : shouldAdvance ni'.Key key = false := by
          rcases hb : shouldAdvance ni'.Key key with _ | _
          · rfl
          · exact absurd
              ((shouldAdvance_iff_lt hsort hm hkey (i + 1) ni' hig').mp hb)
              (by omega)
        rw [hf]
        simp only [Bool.false_eq_true, if_false]
        rw [if_neg (by omega : ¬ m = 0)]
        have : i = m - 1 := by omega
        rw [this]

/-- Any traversal level keeps the walker strictly left of a stored
key's index. -/
theorem traverse_inv {nodes : List SkipNode} {key : Position}
    {m : Nat} {nm : SkipNode}
    (hsort : (nodes.map SkipNode.Key).Chain'
      (fun a b => Position.IsBefore a b = true))
    (hm : nodes.get? m = some nm) (hkey : nm.Key = key) :
    ∀ level fuel (cur : Option Nat),
      (cur = none ∨ ∃ i, cur = some i ∧ i < m) →
      (traverseLevelAux nodes key level fuel cur = none ∨
        ∃ i, traverseLevelAux nodes key level fuel cur = some i ∧ i < m) := by
  intro level fuel
  induction fuel with
  | zero => intro cur h; exact h
  | succ fuel ih =>
    intro cur h
    rw [traverseLevelAux]
    rcases htn : towerNext nodes cur level with _ | j
    · exact h
    · dsimp only
      rcases hg : nodes.get? j with _ | n
      · exact h
      · dsimp only
        rcases hadv : shouldAdvance n.Key key with _ | _
        · simp only [Bool.false_eq_true, if_false]
          exact h
        · simp only [if_true]
          exact ih (some j)
            (Or.inr ⟨j, rfl, (shouldAdvance_iff_lt hsort hm hkey j n hg).mp hadv⟩)

/-- The whole journey (any positive number of levels) ends at the
stored key's level-0 predecessor. -/
theorem searchLoop_eq {nodes : List SkipNode} {key : Position}
    {m : Nat} {nm : SkipNode}
    (hsort : (nodes.map SkipNode.Key).Chain'
      (fun a b => Position.IsBefore a b = true))
    (hh : ∀ n ∈ nodes, 1 ≤ n.height)
    (hm : nodes.get? m = some nm) (hkey : nm.Key = key) :
    ∀ count (cur : Option Nat), 1 ≤ count →
      (cur = none ∨ ∃ i, cur = some i ∧ i < m) →
      searchLoop nodes key count cur =
        if m = 0 then none else some (m - 1) := by
  have hmlt : m < nodes.length := (List.get?_eq_some.mp hm).1
  intro count
  induction count with
  | zero => intro cur hc; omega
  | succ k ih =>
    intro cur _ h
    rw [searchLoop]
    rcases Nat.eq_zero_or_pos k with rfl | hk
    · rw [searchLoop]
      refine traverse0_eq hsort hh hm hkey _ _ ?_
      rcases h with rfl | ⟨i, rfl, hik⟩
      · exact Or.inl ⟨rfl, by omega⟩
      · exact Or.inr ⟨i, rfl, hik, by omega⟩
    · exact ih _ hk (traverse_inv hsort hm hkey k (nodes.length + 1) cur h)

/-- `Search` on a well-formed list locates a stored key: it returns the
key's index and its level-0 predecessor. -/
theorem search_found {sl : SkipList} {key : Position}
    {m : Nat} {nm : SkipNode} (hwf : sl.WF)
    (hm : sl.nodes.get? m = some nm) (hkey : nm.Key = key) :
    sl.Search key = (some m, if m = 0 then none else some (m - 1)) := by
  obtain ⟨hsort, hh, hH⟩ := hwf
  have hmlt : m < sl.nodes.length := (List.get?_eq_some.mp hm).1
  have hj : searchLoop sl.nodes key sl.Height none =
      if m = 0 then none else some (m - 1) :=
    searchLoop_eq hsort hh hm hkey sl.Height none hH (Or.inl rfl)
  unfold SkipList.Search
  rw [hj]
  dsimp only
  have hnext : towerNext sl.nodes (if m = 0 then none else some (m - 1)) 0 =
      some m := by
    rcases Nat.eq_zero_or_pos m with rfl | hmpos
    · rw [if_pos rfl, towerNext_none_zero hh, if_pos (by omega)]
    · obtain ⟨np, hpg⟩ : ∃ np, sl.nodes.get? (m - 1) = some np :=
        ⟨_, List.get?_eq_get (by omega : m - 1 < sl.nodes.length)⟩
      rw [if_neg (by omega : ¬ m = 0), towerNext_some_zero hh hpg,
        if_pos (by omega : m - 1 + 1 < sl.nodes.length)]
      have : m - 1 + 1 = m := by omega
      rw [this]
  rw [hnext]
  dsimp only
  rw [hm]
  dsimp only
  rw [hkey, (Position.equals_iff key key).mpr rfl]
  simp

/-- Claim C10 (confirmed): inserting a key already stored in a
well-formed skip list is the identity — `Search` finds the existing
node, its key is overwritten with the equal key, no node is added and
the height is untouched, so repeated indexing of the same
`(doc_id, offset)` never duplicates a position. -/
theorem claim_C10 (sl : SkipList) (key : Position) (newHeight : Nat)
    (hwf : sl.WF) (hmem : key ∈ sl.keys) :
    sl.Insert key newHeight = sl := by
  obtain ⟨⟨m, hmlt⟩, hget⟩ := List.mem_iff_get.mp hmem
  have hmlt' : m < sl.nodes.length := by
    simpa [SkipList.keys] using hmlt
  obtain ⟨nm, hm⟩ : ∃ nm, sl.nodes.get? m = some nm :=
    ⟨_, List.get?_eq_get hmlt'⟩
  have hkey : nm.Key = key := by
    have h1 : sl.keys.get? m = some key := by
      rw [List.get?_eq_get hmlt, hget]
    rw [SkipList.keys, List.get?_map, hm] at h1
    exact Option.some.inj h1
  unfold SkipList.Insert
  rw [search_found hwf hm hkey]
  dsimp only
  rw [hm]
  simp only [Option.getD_some]
  have hnm : ({ nm with Key := key } : SkipNode) = nm := by
    cases nm
    cases hkey
    rfl
  rw [hnm, set_get_self sl.nodes m nm hm]

/-- Instantiation of `claim_C10` on the two-node list `wsl`: its key
`(1,5)` is stored, the list is well-formed, and inserting `(1,5)` again
(with whatever height the generator draws, here 3) changes nothing. -/
theorem claim_C10_witness :
    wsl.WF ∧ (⟨Coord.val 1, Coord.val 5⟩ : Position) ∈ wsl.keys ∧
      wsl.Insert ⟨Coord.val 1, Coord.val 5⟩ 3 = wsl := by
  have hwf : wsl.WF := by
    refine ⟨?_, ?_, ?_⟩
    · have hk : wsl.keys =
          [⟨Coord.val 1, Coord.val 0⟩, ⟨Coord.val 1, Coord.val 5⟩] := rfl
      rw [hk]
      exact List.chain'_cons.mpr ⟨by decide, List.chain'_singleton _⟩
    · decide
    · decide
  exact ⟨hwf, by decide, claim_C10 wsl ⟨Coord.val 1, Coord.val 5⟩ 3 hwf (by decide)⟩

/-! ### Order utilities for the cover claim -/

/-- `posLE` is reflexive. -/
theorem posLE_refl (p : Position) : posLE p p := Or.inl rfl

/-- `posLE` is transitive. -/
theorem posLE_trans {p q r : Position} (h₁ : posLE p q) (h₂ : posLE q r) :
    posLE p r := by
  rcases h₁ with rfl | h₁
  · exact h₂
  · rcases h₂ with rfl | h₂
    · exact Or.inr h₁
    · exact Or.inr (Position.isBefore_trans h₁ h₂)

/-- `posLE` is antisymmetric. -/
theorem posLE_antisymm {p q : Position} (h₁ : posLE p q) (h₂ : posLE q p) :
    p = q := by
  rcases h₁ with rfl | h₁
  · rfl
  · rcases h₂ with rfl | h₂
    · rfl
    · exact absurd h₂ (by simp [Position.isBefore_asymm h₁])

/-- Totality: a position not after another is at or before it. -/
theorem posLE_of_not_before {p q : Position} (h : Position.IsBefore q p ≠ true) :
    posLE p q := by
  rcases Position.isBefore_total p q with h' | h' | h'
  · exact Or.inr h'
  · exact Or.inl h'
  · exact absurd h' h

/-- A strict step absorbed on the left of `posLE`. -/
theorem before_of_before_posLE {p q r : Position}
    (h₁ : Position.IsBefore p q = true) (h₂ : posLE q r) :
    Position.IsBefore p r = true := by
  rcases h₂ with rfl | h₂
  · exact h₁
  · exact Position.isBefore_trans h₁ h₂

/-- Nothing is before `BOFDocument`. -/
theorem not_before_bof (p : Position) :
    Position.IsBefore p BOFDocument = false := by
  rcases p with ⟨d, o⟩
  rcases d <;> rcases o <;>
    simp [Position.IsBefore, BOFDocument, Coord.ltb, Coord.eqb]

/-! ### Skip-list lookup specifications -/

/-- `findGreaterThan` yields EOF or a stored key. -/
theorem fgt_mem (L : List Position) (k : Position) :
    findGreaterThan L k = EOFDocument ∨ findGreaterThan L k ∈ L := by
  induction L with
  | nil => exact Or.inl rfl
  | cons p rest ih =>
    rw [findGreaterThan]
    split
    · exact Or.inr (List.mem_cons_self p rest)
    · rcases ih with h | h
      · exact Or.inl h
      · exact Or.inr (List.mem_cons_of_mem p h)

/-- `findGreaterThan` yields a key strictly after the probe, unless it
yields EOF. -/
theorem fgt_gt {L : List Position} {k : Position}
    (h : findGreaterThan L k ≠ EOFDocument) :
    Position.IsBefore k (findGreaterThan L k) = true := by
  induction L with
  | nil => exact absurd rfl h
  | cons p rest ih =>
    rw [findGreaterThan] at h ⊢
    split
    · next hk => exact hk
    · next hk =>
      rw [if_neg hk] at h
      exact ih h

/-- On a sorted key list, `findGreaterThan` is the least key strictly
after the probe. -/
theorem fgt_least {L : List Position} {k : Position}
    (hpair : L.Pairwise (fun a b => Position.IsBefore a b = true)) :
    ∀ q ∈ L, Position.IsBefore k q = true → posLE (findGreaterThan L k) q := by
  induction L with
  | nil => intro q hq; exact absurd hq (List.not_mem_nil q)
  | cons p rest ih =>
    intro q hq hkq
    obtain ⟨hhead, htail⟩ := List.pairwise_cons.mp hpair
    rw [findGreaterThan]
    split
    · next hk =>
      rcases List.mem_cons.mp hq with rfl | hq'
      · exact posLE_refl q
      · exact Or.inr (hhead q hq')
    · next hk =>
      rcases List.mem_cons.mp hq with rfl | hq'
      · exact absurd hkq (by simpa using hk)
      · exact ih htail q hq' hkq

/-- `findLessThan` yields BOF or a stored key. -/
theorem flt_mem (L : List Position) (k : Position) :
    findLessThan L k = BOFDocument ∨ findLessThan L k ∈ L := by
  induction L with
  | nil => exact Or.inl rfl
  | cons p rest ih =>
    rw [findLessThan]
    split
    · dsimp only
      split
      · exact Or.inr (List.mem_cons_self p rest)
      · rcases ih with h | h
        · exact Or.inl h
        · exact Or.inr (List.mem_cons_of_mem p h)
    · exact Or.inl rfl

/-- `findLessThan` yields a key strictly before the probe, unless it
yields BOF. -/
theorem flt_lt {L : List Position} {k : Position}
    (h : findLessThan L k ≠ BOFDocument) :
    Position.IsBefore (findLessThan L k) k = true := by
  induction L with
  | nil => exact absurd rfl h
  | cons p rest ih =>
    rw [findLessThan] at h ⊢
    split
    · next hp =>
      rw [if_pos hp] at h
      dsimp only at h ⊢
      split
      · exact hp
      · next hr =>
        rw [if_neg hr] at h
        exact ih h
    · next hp =>
      rw [if_neg hp] at h
      exact absurd rfl h

/-- On a sorted key list without BOF, `findLessThan` is the greatest
key strictly before the probe. -/
theorem flt_greatest {L : List Position} {k : Position}
    (hpair : L.Pairwise (fun a b => Position.IsBefore a b = true))
    (hbof : BOFDocument ∉ L) :
    ∀ q ∈ L, Position.IsBefore q k = true → posLE q (findLessThan L k) := by
  induction L with
  | nil => intro q hq; exact absurd hq (List.not_mem_nil q)
  | cons p rest ih =>
    intro q hq hqk
    obtain ⟨hhead, htail⟩ := List.pairwise_cons.mp hpair
    rw [findLessThan]
    split
    · next hp =>
      dsimp only
      split
      · next hr =>
        rcases List.mem_cons.mp hq with rfl | hq'
        · exact posLE_refl q
        · have h := ih htail (fun hm => hbof (List.mem_cons_of_mem p hm)) q hq' hqk
          rw [hr] at h
          rcases h with h | h
          · exact absurd (h ▸ hq') (fun hm => hbof (List.mem_cons_of_mem p hm))
          · rw [not_before_bof] at h
            exact absurd h (by simp)
      · next hr =>
        rcases List.mem_cons.mp hq with rfl | hq'
        · rcases flt_mem rest k with h | h
          · exact absurd h hr
          · exact Or.inr (hhead _ h)
        · exact ih htail (fun hm => hbof (List.mem_cons_of_mem p hm)) q hq' hqk
    · next hp =>
      rcases List.mem_cons.mp hq with rfl | hq'
      · exact absurd hqk (by simpa using hp)
      · exact absurd (Position.isBefore_trans (hhead q hq') hqk)
          (by simpa using hp)

/-! ### `Next`/`Previous` specifications -/

/-- Every stored occurrence has integer coordinates. -/
theorem occ_finite (idx : InvertedIndex) (t : String) :
    ∀ q ∈ occurrences idx t, finitePos q := by
  intro q hq
  unfold occurrences at hq
  rcases hg : idx.getPostingList t with _ | ns
  · rw [hg] at hq
    exact absurd hq (List.not_mem_nil q)
  · rw [hg] at hq
    dsimp only at hq
    unfold postingKeys at hq
    obtain ⟨n, _, rfl⟩ := List.mem_map.mp hq
    exact ⟨n.docID, n.offset, rfl⟩

/-- A finite position is not the BOF sentinel. -/
theorem finite_ne_bof {p : Position} (h : finitePos p) : p ≠ BOFDocument := by
  obtain ⟨d, o, rfl⟩ := h
  simp [BOFDocument]

/-- A finite position is not at a document end. -/
theorem finite_not_end {p : Position} (h : finitePos p) : p.IsEnd = false := by
  obtain ⟨d, o, rfl⟩ := h
  simp [Position.IsEnd]

/-- A finite position is not at a document beginning. -/
theorem finite_not_beginning {p : Position} (h : finitePos p) :
    p.IsBeginning = false := by
  obtain ⟨d, o, rfl⟩ := h
  simp [Position.IsBeginning]

/-- Nothing is at or before BOF except BOF itself, which stored lists
exclude. -/
theorem posLE_bof_elim {q : Position} (hq : finitePos q)
    (h : posLE q BOFDocument) : False := by
  rcases h with rfl | h
  · exact finite_ne_bof hq rfl
  · rw [not_before_bof] at h
    exact absurd h (by simp)

/-- `Next` from the EOF sentinel stays at EOF. -/
theorem next_eof (idx : InvertedIndex) (t : String) :
    idx.Next t EOFDocument = EOFDocument := by
  simp [InvertedIndex.Next, Position.IsBeginning, Position.IsEnd, EOFDocument]

/-- A non-EOF `Next` result is a stored occurrence. -/
theorem next_mem {idx : InvertedIndex} {t : String} {sp : Position}
    (h : (idx.Next t sp).IsEnd = false) :
    idx.Next t sp ∈ occurrences idx t := by
  unfold InvertedIndex.Next at h ⊢
  by_cases hb : sp.IsBeginning = true
  · rw [if_pos hb] at h ⊢
    unfold InvertedIndex.First at h ⊢
    unfold occurrences
    rcases hg : idx.getPostingList t with _ | ns
    · rw [hg] at h
      simp [Position.IsEnd, EOFDocument] at h
    · rw [hg] at h
      dsimp only at h ⊢
      rcases hk : postingKeys ns with _ | ⟨x, rest⟩
      · rw [hk] at h
        simp [Position.IsEnd, EOFDocument] at h
      · dsimp only
        exact List.mem_cons_self x rest
  · rw [if_neg hb] at h ⊢
    by_cases he : sp.IsEnd = true
    · rw [if_pos he] at h
      simp [Position.IsEnd, EOFDocument] at h
    · rw [if_neg he] at h ⊢
      unfold occurrences
      rcases hg : idx.getPostingList t with _ | ns
      · rw [hg] at h
        simp [Position.IsEnd, EOFDocument] at h
      · rw [hg] at h
        dsimp only at h ⊢
        rcases fgt_mem (postingKeys ns) sp with hEq | hmem
        · rw [hEq] at h
          simp [Position.IsEnd, EOFDocument] at h
        · exact hmem

/-- A non-EOF `Next` from a non-beginning position is strictly after
it. -/
theorem next_after {idx : InvertedIndex} {t : String} {sp : Position}
    (hb : sp.IsBeginning = false) (h : (idx.Next t sp).IsEnd = false) :
    Position.IsBefore sp (idx.Next t sp) = true := by
  unfold InvertedIndex.Next at h ⊢
  rw [if_neg (by simp [hb])] at h ⊢
  by_cases he : sp.IsEnd = true
  · rw [if_pos he] at h
    simp [Position.IsEnd, EOFDocument] at h
  · rw [if_neg he] at h ⊢
    rcases hg : idx.getPostingList t with _ | ns
    · rw [hg] at h
      simp [Position.IsEnd, EOFDocument] at h
    · rw [hg] at h
      dsimp only at h ⊢
      refine fgt_gt (fun hEq => ?_)
      rw [hEq] at h
      simp [Position.IsEnd, EOFDocument] at h

/-- `Next` is the least occurrence strictly after the probe (from a
beginning position, the least occurrence overall). -/
theorem next_least {idx : InvertedIndex} {t : String} {sp : Position}
    (hpair : (occurrences idx t).Pairwise
      (fun a b => Position.IsBefore a b = true))
    (he : sp.IsEnd = false) :
    ∀ q ∈ occurrences idx t,
      sp.IsBeginning = true ∨ Position.IsBefore sp q = true →
      posLE (idx.Next t sp) q := by
  intro q hq hd
  unfold InvertedIndex.Next
  unfold occurrences at hq hpair
  by_cases hb : sp.IsBeginning = true
  · rw [if_pos hb]
    unfold InvertedIndex.First
    rcases hg : idx.getPostingList t with _ | ns
    · rw [hg] at hq
      exact absurd hq (List.not_mem_nil q)
    · rw [hg] at hq hpair
      dsimp only at hq hpair ⊢
      rcases hk : postingKeys ns with _ | ⟨x, rest⟩
      · rw [hk] at hq
        exact absurd hq (List.not_mem_nil q)
      · rw [hk] at hq hpair
        rcases List.mem_cons.mp hq with rfl | hq'
        · exact posLE_refl q
        · exact Or.inr ((List.pairwise_cons.mp hpair).1 q hq')
  · rw [if_neg hb, if_neg (by simp [he])]
    rcases hd with hd | hd
    · exact absurd hd hb
    · rcases hg : idx.getPostingList t with _ | ns
      · rw [hg] at hq
        exact absurd hq (List.not_mem_nil q)
      · rw [hg] at hq hpair
        dsimp only at hq hpair ⊢
        exact fgt_least hpair q hq hd

/-- `Previous` from a middle position yields BOF or a stored
occurrence. -/
theorem prev_mem {idx : InvertedIndex} {t : String} {b : Position}
    (hbE : b.IsEnd = false) (hbB : b.IsBeginning = false) :
    idx.Previous t b = BOFDocument ∨ idx.Previous t b ∈ occurrences idx t := by
  unfold InvertedIndex.Previous
  rw [if_neg (by simp [hbE]), if_neg (by simp [hbB])]
  unfold occurrences
  rcases hg : idx.getPostingList t with _ | ns
  · exact Or.inl rfl
  · dsimp only
    exact flt_mem (postingKeys ns) b

/-- A non-BOF `Previous` from a middle position is strictly before
it. -/
theorem prev_lt {idx : InvertedIndex} {t : String} {b : Position}
    (hbE : b.IsEnd = false) (hbB : b.IsBeginning = false)
    (h : idx.Previous t b ≠ BOFDocument) :
    Position.IsBefore (idx.Previous t b) b = true := by
  unfold InvertedIndex.Previous at h ⊢
  rw [if_neg (by simp [hbE]), if_neg (by simp [hbB])] at h ⊢
  rcases hg : idx.getPostingList t with _ | ns
  · rw [hg] at h
    exact absurd rfl h
  · rw [hg] at h
    dsimp only at h ⊢
    exact flt_lt h

/-- `Previous` from a middle position is the greatest occurrence
strictly before it. -/
theorem prev_greatest {idx : InvertedIndex} {t : String} {b : Position}
    (hpair : (occurrences idx t).Pairwise
      (fun a b => Position.IsBefore a b = true))
    (hbE : b.IsEnd = false) (hbB : b.IsBeginning = false) :
    ∀ q ∈ occurrences idx t, Position.IsBefore q b = true →
      posLE q (idx.Previous t b) := by
  intro q hq hqb
  have hbof : BOFDocument ∉ occurrences idx t := fun hm =>
    finite_ne_bof (occ_finite idx t BOFDocument hm) rfl
  unfold InvertedIndex.Previous
  rw [if_neg (by simp [hbE]), if_neg (by simp [hbB])]
  unfold occurrences at hq hpair hbof
  rcases hg : idx.getPostingList t with _ | ns
  · rw [hg] at hq
    exact absurd hq (List.not_mem_nil q)
  · rw [hg] at hq hpair hbof
    dsimp only at hq hpair hbof ⊢
    exact flt_greatest hpair hbof q hq hqb

/-- `Previous` of any probe is BOF, EOF, or a finite position. -/
theorem prev_shape (idx : InvertedIndex) (t : String) (b : Position) :
    idx.Previous t b = BOFDocument ∨ idx.Previous t b = EOFDocument ∨
      finitePos (idx.Previous t b) := by
  unfold InvertedIndex.Previous
  by_cases he : b.IsEnd = true
  · rw [if_pos he]
    unfold InvertedIndex.Last
    rcases hg : idx.getPostingList t with _ | ns
    · exact Or.inr (Or.inl rfl)
    · dsimp only
      unfold skipListLast
      rcases hL : (ns.map WNode.pos).getLast? with _ | q
      · exact Or.inr (Or.inl rfl)
      · have hqm : q ∈ ns.map WNode.pos := List.mem_of_mem_getLast? hL
        obtain ⟨n, _, rfl⟩ := List.mem_map.mp hqm
        exact Or.inr (Or.inr ⟨n.docID, n.offset, rfl⟩)
  · rw [if_neg he]
    by_cases hbg : b.IsBeginning = true
    · rw [if_pos hbg]
      exact Or.inl rfl
    · rw [if_neg hbg]
      rcases hg : idx.getPostingList t with _ | ns
      · exact Or.inl rfl
      · dsimp only
        rcases flt_mem (postingKeys ns) b with h | h
        · exact Or.inl h
        · unfold postingKeys at h
          obtain ⟨n, _, hn⟩ := List.mem_map.mp h
          exact Or.inr (Or.inr ⟨n.docID, n.offset, hn.symm⟩)

/-! ### Cover construction specifications -/

/-- `findCoverEndAux`, when it does not abort at EOF: the result bounds
the accumulator and every token's `Next`, and is one of them. -/
theorem cend_spec (idx : InvertedIndex) (sp : Position) :
    ∀ (toks : List String) (acc : Position),
      (findCoverEndAux idx sp toks acc).IsEnd = false →
      posLE acc (findCoverEndAux idx sp toks acc) ∧
      (∀ t ∈ toks, (idx.Next t sp).IsEnd = false ∧
        posLE (idx.Next t sp) (findCoverEndAux idx sp toks acc)) ∧
      (findCoverEndAux idx sp toks acc = acc ∨
        ∃ t ∈ toks, findCoverEndAux idx sp toks acc = idx.Next t sp) := by
  intro toks
  induction toks with
  | nil =>
    intro acc _
    exact ⟨posLE_refl acc, by simp, Or.inl rfl⟩
  | cons t rest ih =>
    intro acc h
    rw [findCoverEndAux] at h ⊢
    by_cases hE : (idx.Next t sp).IsEnd = true
    · rw [if_pos (by simp [hE])] at h
      simp [Position.IsEnd, EOFDocument] at h
    · rw [if_neg (by simp [hE])] at h ⊢
      by_cases hA : (idx.Next t sp).IsAfter acc = true
      · rw [if_pos hA] at h ⊢
        obtain ⟨h1, h2, h3⟩ := ih (idx.Next t sp) h
        have hA' : Position.IsBefore acc (idx.Next t sp) = true := by
          rw [Position.isAfter_eq_isBefore] at hA
          exact hA
        refine ⟨Or.inr (before_of_before_posLE hA' h1), ?_, ?_⟩
        · intro t' ht'
          rcases List.mem_cons.mp ht' with rfl | ht''
          · exact ⟨by simpa using hE, h1⟩
          · exact h2 t' ht''
        · rcases h3 with h3 | ⟨t', ht', h3⟩
          · exact Or.inr ⟨t, List.mem_cons_self t rest, h3⟩
          · exact Or.inr ⟨t', List.mem_cons_of_mem t ht', h3⟩
      · rw [if_neg hA] at h ⊢
        obtain ⟨h1, h2, h3⟩ := ih acc h
        have hle : posLE (idx.Next t sp) acc := by
          refine posLE_of_not_before ?_
          rw [← Position.isAfter_eq_isBefore]
          exact hA
        refine ⟨h1, ?_, ?_⟩
        · intro t' ht'
          rcases List.mem_cons.mp ht' with rfl | ht''
          · exact ⟨by simpa using hE, posLE_trans hle h1⟩
          · exact h2 t' ht''
        · rcases h3 with h3 | ⟨t', ht', h3⟩
          · exact Or.inl h3
          · exact Or.inr ⟨t', List.mem_cons_of_mem t ht', h3⟩

/-- From EOF, the cover-end search of a non-empty token list aborts. -/
theorem cend_eof (idx : InvertedIndex) {tokens : List String}
    (hne : tokens ≠ []) :
    findCoverEnd idx tokens EOFDocument = EOFDocument := by
  rcases tokens with _ | ⟨t, rest⟩
  · exact absurd rfl hne
  · rw [findCoverEnd, findCoverEndAux, next_eof]
    rw [if_pos (by simp [Position.IsEnd, EOFDocument])]

/-- The cover-start fold returns its accumulator or one of the tokens'
`Previous` positions. -/
theorem cstart_mem (idx : InvertedIndex) (b : Position) :
    ∀ (toks : List String) (acc : Position),
      findCoverStartAux idx b toks acc = acc ∨
        ∃ t ∈ toks, findCoverStartAux idx b toks acc = idx.Previous t b := by
  intro toks
  induction toks with
  | nil => intro acc; exact Or.inl rfl
  | cons t rest ih =>
    intro acc
    rw [findCoverStartAux]
    by_cases hc : (acc.IsBeginning || (idx.Previous t b).IsBefore acc) = true
    · rw [if_pos hc]
      rcases ih (idx.Previous t b) with h | ⟨t', ht', h⟩
      · exact Or.inr ⟨t, List.mem_cons_self t rest, h⟩
      · exact Or.inr ⟨t', List.mem_cons_of_mem t ht', h⟩
    · rw [if_neg hc]
      rcases ih acc with h | ⟨t', ht', h⟩
      · exact Or.inl h
      · exact Or.inr ⟨t', List.mem_cons_of_mem t ht', h⟩

/-- The cover-start fold from a non-beginning accumulator is bounded by
the accumulator and every token's `Previous`. -/
theorem cstart_bound {idx : InvertedIndex} {b : Position} :
    ∀ (toks : List String) (acc : Position),
      (∀ t ∈ toks, (idx.Previous t b).IsBeginning = false) →
      acc.IsBeginning = false →
      posLE (findCoverStartAux idx b toks acc) acc ∧
      (∀ t ∈ toks, posLE (findCoverStartAux idx b toks acc)
        (idx.Previous t b)) := by
  intro toks
  induction toks with
  | nil =>
    intro acc _ _
    exact ⟨posLE_refl acc, by simp⟩
  | cons t rest ih =>
    intro acc hnb hacc
    rw [findCoverStartAux]
    rw [hacc, Bool.false_or]
    by_cases hlt : (idx.Previous t b).IsBefore acc = true
    · rw [if_pos hlt]
      obtain ⟨h1, h2⟩ := ih (idx.Previous t b)
        (fun u hu => hnb u (List.mem_cons_of_mem t hu))
        (hnb t (List.mem_cons_self t rest))
      refine ⟨posLE_trans h1 (Or.inr hlt), ?_⟩
      intro t' ht'
      rcases List.mem_cons.mp ht' with rfl | ht''
      · exact h1
      · exact h2 t' ht''
    · rw [if_neg hlt]
      obtain ⟨h1, h2⟩ := ih acc
        (fun u hu => hnb u (List.mem_cons_of_mem t hu)) hacc
      refine ⟨h1, ?_⟩
      intro t' ht'
      rcases List.mem_cons.mp ht' with rfl | ht''
      · exact posLE_trans h1 (posLE_of_not_before hlt)
      · exact h2 t' ht''

/-- The cover-start fold from the BOF accumulator is bounded by every
token's `Previous`. -/
theorem cstart_spec {idx : InvertedIndex} {b : Position} :
    ∀ (toks : List String),
      (∀ t ∈ toks, (idx.Previous t b).IsBeginning = false) → toks ≠ [] →
      ∀ t ∈ toks, posLE (findCoverStartAux idx b toks BOFDocument)
        (idx.Previous t b) := by
  intro toks hnb hne
  rcases toks with _ | ⟨t, rest⟩
  · exact absurd rfl hne
  · rw [findCoverStartAux]
    rw [if_pos (by simp [BOFDocument, Position.IsBeginning])]
    obtain ⟨h1, h2⟩ := cstart_bound rest (idx.Previous t b)
      (fun u hu => hnb u (List.mem_cons_of_mem t hu))
      (hnb t (List.mem_cons_self t rest))
    intro t' ht'
    rcases List.mem_cons.mp ht' with rfl | ht''
    · exact h1
    · exact h2 t' ht''

/-- Being at or before a finite position is exactly being strictly
before the cover-start search bound (document unchanged, offset + 1). -/
theorem posLE_iff_bound (cd co : Int) (x : Position) :
    posLE x ⟨Coord.val cd, Coord.val co⟩ ↔
      Position.IsBefore x ⟨Coord.val cd, Coord.val (co + 1)⟩ = true := by
  rcases x with ⟨xd, xo⟩
  rcases xd <;> rcases xo <;>
    simp [posLE, Position.IsBefore, Coord.ltb, Coord.eqb,
      Position.mk.injEq] <;>
    omega

/-- The guard-passing iteration of `NextCover`: same document, all
tokens occur inside the cover, and no proper sub-interval contains
them all. -/
theorem cover_step {idx : InvertedIndex} {tokens : List String}
    (hne : tokens ≠ [])
    (hsorted : ∀ t ∈ tokens, (occurrences idx t).Pairwise
      (fun a b => Position.IsBefore a b = true))
    {p cs ce : Position}
    (hsp : p = BOFDocument ∨ finitePos p)
    (hce : findCoverEnd idx tokens p = ce)
    (hceE : ce.IsEnd = false)
    (hcs : findCoverStart idx tokens ce = cs)
    (hguard : Coord.eqb cs.DocumentID ce.DocumentID = true) :
    cs.DocumentID = ce.DocumentID ∧
    (∀ t ∈ tokens, ∃ q ∈ occurrences idx t, posLE cs q ∧ posLE q ce) ∧
    (∀ a b : Position, posLE cs a → posLE b ce →
      (∀ t ∈ tokens, ∃ q ∈ occurrences idx t, posLE a q ∧ posLE q b) →
      a = cs ∧ b = ce) := by
  have hspE : p.IsEnd = false := by
    rcases hsp with rfl | hf
    · simp [BOFDocument, Position.IsEnd]
    · exact finite_not_end hf
  rw [findCoverEnd] at hce
  obtain ⟨hacc, hall, hsrc⟩ :=
    cend_spec idx p tokens p (by rw [hce]; exact hceE)
  rw [hce] at hacc hall hsrc
  obtain ⟨t1, ht1, hce1⟩ : ∃ t1 ∈ tokens, ce = idx.Next t1 p := by
    rcases hsrc with hcep | h
    · obtain ⟨t0, ht0⟩ := List.exists_mem_of_ne_nil tokens hne
      obtain ⟨h0E, h0le⟩ := hall t0 ht0
      rcases hsp with rfl | hf
      · rw [hcep] at h0le
        exact absurd h0le (fun hle =>
          posLE_bof_elim (occ_finite idx t0 _ (next_mem h0E)) hle)
      · rw [hcep] at h0le
        have hgt := next_after (finite_not_beginning hf) h0E
        have hpeq := posLE_antisymm (Or.inr hgt) h0le
        rw [← hpeq, Position.isBefore_irrefl] at hgt
        exact absurd hgt (by simp)
    · exact h
  have hcefin : finitePos ce :=
    hce1 ▸ occ_finite idx t1 _ (next_mem (hall t1 ht1).1)
  obtain ⟨cd, co, hceq⟩ := hcefin
  subst hceq
  rw [findCoverStart] at hcs
  dsimp only at hcs
  rw [show Coord.add1 (Coord.val co) = Coord.val (co + 1) from rfl] at hcs
  have hbE : Position.IsEnd ⟨Coord.val cd, Coord.val (co + 1)⟩ = false := by
    simp [Position.IsEnd]
  have hbB : Position.IsBeginning ⟨Coord.val cd, Coord.val (co + 1)⟩ =
      false := by
    simp [Position.IsBeginning]
  have hpv : ∀ t ∈ tokens,
      idx.Previous t ⟨Coord.val cd, Coord.val (co + 1)⟩ ∈ occurrences idx t ∧
      posLE (idx.Next t p)
        (idx.Previous t ⟨Coord.val cd, Coord.val (co + 1)⟩) ∧
      posLE (idx.Previous t ⟨Coord.val cd, Coord.val (co + 1)⟩)
        ⟨Coord.val cd, Coord.val co⟩ := by
    intro t ht
    obtain ⟨hwE, hwle⟩ := hall t ht
    have hwmem := next_mem hwE
    have hwb := (posLE_iff_bound cd co _).mp hwle
    have hge := prev_greatest (hsorted t ht) hbE hbB _ hwmem hwb
    have hnbof :
        idx.Previous t ⟨Coord.val cd, Coord.val (co + 1)⟩ ≠ BOFDocument := by
      intro hbo
      rw [hbo] at hge
      exact posLE_bof_elim (occ_finite idx t _ hwmem) hge
    have hmem := (prev_mem hbE hbB).resolve_left hnbof
    have hlt := prev_lt hbE hbB hnbof
    exact ⟨hmem, hge, (posLE_iff_bound cd co _).mpr hlt⟩
  have hnbAll : ∀ t ∈ tokens,
      (idx.Previous t ⟨Coord.val cd, Coord.val (co + 1)⟩).IsBeginning =
        false := fun t ht =>
    finite_not_beginning (occ_finite idx t _ (hpv t ht).1)
  have hcsle : ∀ t ∈ tokens,
      posLE cs (idx.Previous t ⟨Coord.val cd, Coord.val (co + 1)⟩) := by
    intro t ht
    rw [← hcs]
    exact cstart_spec tokens hnbAll hne t ht
  obtain ⟨ts, hts, hcseq⟩ : ∃ ts ∈ tokens,
      cs = idx.Previous ts ⟨Coord.val cd, Coord.val (co + 1)⟩ := by
    rcases cstart_mem idx ⟨Coord.val cd, Coord.val (co + 1)⟩ tokens
        BOFDocument with h | ⟨ts, hts, h⟩
    · rw [hcs] at h
      rw [h] at hguard
      simp [BOFDocument, Coord.eqb] at hguard
    · rw [hcs] at h
      exact ⟨ts, hts, h⟩
  refine ⟨(Coord.eqb_iff _ _).mp hguard, ?_, ?_⟩
  · intro t ht
    exact ⟨idx.Previous t ⟨Coord.val cd, Coord.val (co + 1)⟩,
      (hpv t ht).1, hcsle t ht, (hpv t ht).2.2⟩
  · intro a b' hcsa hb'ce hall'
    obtain ⟨x, hxmem, hax, hxb'⟩ := hall' ts hts
    have hxce := posLE_trans hxb' hb'ce
    have hxle := prev_greatest (hsorted ts hts) hbE hbB x hxmem
      ((posLE_iff_bound cd co x).mp hxce)
    rw [← hcseq] at hxle
    have haeq : a = cs := (posLE_antisymm hcsa (posLE_trans hax hxle)).symm
    obtain ⟨y, hymem, hay, hyb'⟩ := hall' t1 ht1
    have hdisj : p.IsBeginning = true ∨ Position.IsBefore p y = true := by
      rcases hsp with rfl | hf
      · exact Or.inl (by simp [BOFDocument, Position.IsBeginning])
      · right
        have h1 := next_after (finite_not_beginning hf) (hall ts hts).1
        have h2 : posLE (idx.Next ts p) cs := hcseq ▸ (hpv ts hts).2.1
        have h3 : posLE cs y := posLE_trans hcsa hay
        exact before_of_before_posLE h1 (posLE_trans h2 h3)
    have hyge := next_least (hsorted t1 ht1) hspE y hymem hdisj
    rw [← hce1] at hyge
    exact ⟨haeq, posLE_antisymm hb'ce (posLE_trans hyge hyb')⟩

/-! ### Claim C7 -/

/-- Claim C7 (confirmed): a non-EOF cover returned by `NextCover` — on
an index whose posting lists are strictly ascending, for a non-empty
token list and a start position that is BOF, EOF, or finite, as in
every call the search code makes — has both endpoints in one document,
contains at least one occurrence of every query token, and is minimal:
any sub-interval `[a, b]` of `[cover_start, cover_end]` still holding
an occurrence of every token is the whole cover. -/
theorem claim_C7 (idx : InvertedIndex) (tokens : List String)
    (p : Position) (fuel : Nat) (cs ce : Position)
    (hne : tokens ≠ [])
    (hsorted : ∀ t ∈ tokens, (occurrences idx t).Pairwise
      (fun a b => Position.IsBefore a b = true))
    (hp : p = BOFDocument ∨ p = EOFDocument ∨ finitePos p)
    (hrun : NextCover idx tokens p fuel = (cs, ce))
    (hend : cs.IsEnd = false) :
    cs.DocumentID = ce.DocumentID ∧
    (∀ t ∈ tokens, ∃ q ∈ occurrences idx t, posLE cs q ∧ posLE q ce) ∧
    (∀ a b : Position, posLE cs a → posLE b ce →
      (∀ t ∈ tokens, ∃ q ∈ occurrences idx t, posLE a q ∧ posLE q b) →
      a = cs ∧ b = ce) := by
  revert hp hrun
  induction fuel generalizing p with
  | zero =>
    intro hp hrun
    rw [NextCover] at hrun
    injection hrun with h1 h2
    rw [← h1] at hend
    simp [EOFDocument, Position.IsEnd] at hend
  | succ fuel ih =>
    intro hp hrun
    rw [NextCover] at hrun
    by_cases hE : (findCoverEnd idx tokens p).IsEnd = true
    · rw [if_pos hE] at hrun
      injection hrun with h1 h2
      rw [← h1] at hend
      simp [EOFDocument, Position.IsEnd] at hend
    · rw [if_neg hE] at hrun
      dsimp only at hrun
      have hsp : p = BOFDocument ∨ finitePos p := by
        rcases hp with h | rfl | h
        · exact Or.inl h
        · refine absurd ?_ hE
          rw [cend_eof idx hne]
          simp [Position.IsEnd, EOFDocument]
        · exact Or.inr h
      by_cases hG : Coord.eqb
          (findCoverStart idx tokens (findCoverEnd idx tokens p)).DocumentID
          (findCoverEnd idx tokens p).DocumentID = true
      · rw [if_pos hG] at hrun
        injection hrun with h1 h2
        subst h1
        subst h2
        exact cover_step hne hsorted hsp rfl (by simpa using hE) rfl hG
      · rw [if_neg hG] at hrun
        refine ih _ ?_ hrun
        have hshape : ∀ e : Position,
            findCoverStart idx tokens e = BOFDocument ∨
            findCoverStart idx tokens e = EOFDocument ∨
            finitePos (findCoverStart idx tokens e) := by
          intro e
          rw [findCoverStart]
          rcases cstart_mem idx ⟨e.DocumentID, e.Offset.add1⟩ tokens
              BOFDocument with h | ⟨t, _, h⟩
          · rw [h]
            exact Or.inl rfl
          · rw [h]
            exact prev_shape idx t _
        exact hshape _

/-- Instantiation of `claim_C7` on `pxidx`: the first cover of
`machin learn` is `[(1,0), (1,5)]`, all hypotheses discharged on the
concrete index. -/
theorem claim_C7_witness :
    (["machin", "learn"] : List String) ≠ [] ∧
    NextCover pxidx ["machin", "learn"] BOFDocument 20 =
      (⟨Coord.val 1, Coord.val 0⟩, ⟨Coord.val 1, Coord.val 5⟩) ∧
    (⟨Coord.val 1, Coord.val 0⟩ : Position).DocumentID =
      (⟨Coord.val 1, Coord.val 5⟩ : Position).DocumentID ∧
    (∀ t ∈ (["machin", "learn"] : List String), ∃ q ∈ occurrences pxidx t,
      posLE ⟨Coord.val 1, Coord.val 0⟩ q ∧
      posLE q ⟨Coord.val 1, Coord.val 5⟩) := by
  have h := claim_C7 pxidx ["machin", "learn"] BOFDocument 20
    ⟨Coord.val 1, Coord.val 0⟩ ⟨Coord.val 1, Coord.val 5⟩
    (by decide) (by decide) (Or.inl rfl) (by decide) (by decide)
  exact ⟨by decide, by decide, h.1, h.2.1⟩

/-! ### Codec round trip: byte-level lemmas -/

/-- Reading at the boundary between a prefix and a payload returns the
payload. -/
theorem readBytes_exact (pre payload suf : List Nat) :
    readBytes (pre ++ (payload ++ suf)) pre.length payload.length =
      some payload := by
  unfold readBytes
  rw [if_pos (by simp)]
  rw [List.drop_append_of_le_length (by simp)]
  simp [List.take_append_of_le_length]

/-- `u32LE` writes four bytes. -/
theorem u32LE_length (n : Nat) : (u32LE n).length = 4 := rfl

/-- `u64LE` writes eight bytes. -/
theorem u64LE_length (n : Nat) : (u64LE n).length = 8 := rfl

/-- `u16LE` writes two bytes. -/
theorem u16LE_length (n : Nat) : (u16LE n).length = 2 := rfl

/-- Little-endian value of a `u16` write. -/
theorem leVal_u16LE (n : Nat) : leVal (u16LE n) = n % 2 ^ 16 := by
  simp [leVal, u16LE]
  try omega

/-- Little-endian value of a `u32` write. -/
theorem leVal_u32LE (n : Nat) : leVal (u32LE n) = n % 2 ^ 32 := by
  simp [leVal, u32LE]
  omega

/-- Little-endian value of a `u64` write. -/
theorem leVal_u64LE (n : Nat) : leVal (u64LE n) = n % 2 ^ 64 := by
  simp [leVal, u64LE]
  omega

/-- Reading a `u16` field at its offset. -/
theorem readU16_at (pre suf : List Nat) (n : Nat) :
    readU16 (pre ++ (u16LE n ++ suf)) pre.length = some (n % 2 ^ 16) := by
  unfold readU16
  have h := readBytes_exact pre (u16LE n) suf
  rw [u16LE_length] at h
  rw [h]
  simp [leVal_u16LE]

/-- Reading a `u32` field at its offset. -/
theorem readU32_at (pre suf : List Nat) (n : Nat) :
    readU32 (pre ++ (u32LE n ++ suf)) pre.length = some (n % 2 ^ 32) := by
  unfold readU32
  have h := readBytes_exact pre (u32LE n) suf
  rw [u32LE_length] at h
  rw [h]
  simp [leVal_u32LE]

/-- Reading a `u64` field at its offset. -/
theorem readU64_at (pre suf : List Nat) (n : Nat) :
    readU64 (pre ++ (u64LE n ++ suf)) pre.length = some (n % 2 ^ 64) := by
  unfold readU64
  have h := readBytes_exact pre (u64LE n) suf
  rw [u64LE_length] at h
  rw [h]
  simp [leVal_u64LE]

/-- `u16LE` depends only on the value modulo `2^16`. -/
theorem u16LE_mod (n : Nat) : u16LE (n % 2 ^ 16) = u16LE n := by
  simp [u16LE]
  omega

/-- `u32LE` depends only on the value modulo `2^32`. -/
theorem u32LE_mod (n : Nat) : u32LE (n % 2 ^ 32) = u32LE n := by
  simp [u32LE]
  omega

/-- `u64LE` depends only on the value modulo `2^64`. -/
theorem u64LE_mod (n : Nat) : u64LE (n % 2 ^ 64) = u64LE n := by
  simp [u64LE]
  omega

/-- The `uint32` pattern of an integer is below `2^32`. -/
theorem u32OfInt_lt (n : Int) : u32OfInt n < 2 ^ 32 := by
  unfold u32OfInt
  omega

/-- The `uint64` pattern of an integer is below `2^64`. -/
theorem u64OfInt_lt (n : Int) : u64OfInt n < 2 ^ 64 := by
  unfold u64OfInt
  omega

/-- Casting a small `Nat` to `Int` and back to a `uint32` pattern is
the identity. -/
theorem u32OfInt_natCast (u : Nat) (h : u < 2 ^ 32) :
    u32OfInt (u : Int) = u := by
  unfold u32OfInt
  omega

/-- Re-encoding a signed reading of a `uint32` pattern reproduces it. -/
theorem u32OfInt_intOfU32 (u : Nat) (h : u < 2 ^ 32) :
    u32OfInt (intOfU32 u) = u := by
  unfold u32OfInt intOfU32
  split <;> omega

/-- Re-encoding a signed reading of a `uint64` pattern reproduces it. -/
theorem u64OfInt_intOfU64 (u : Nat) (h : u < 2 ^ 64) :
    u64OfInt (intOfU64 u) = u := by
  unfold u64OfInt intOfU64
  split <;> omega

/-- Character facts used by the codec: code points are below `0x110000`
and never surrogates. -/
theorem char_facts (c : Char) :
    c.toNat < 0x110000 ∧ ¬(0xD800 ≤ c.toNat ∧ c.toNat ≤ 0xDFFF) := by
  have ht : c.toNat = c.val.toNat := rfl
  rcases c.valid with h | ⟨h1, h2⟩ <;> constructor <;> omega

/-- Decoding the UTF-8 encoding of a character list recovers it (with
any fuel at least the character count). -/
theorem utf8_aux_roundtrip :
    ∀ (cs : List Char) (fuel : Nat), cs.length ≤ fuel →
      utf8DecodeAux fuel (cs.map utf8EncodeCharNat).flatten = some cs := by
  intro cs
  induction cs with
  | nil =>
    intro fuel _
    rcases fuel with _ | f <;> rfl
  | cons c cs ih =>
    intro fuel hf
    rcases fuel with _ | f
    · simp at hf
    · have hcs : cs.length ≤ f := by simpa using hf
      obtain ⟨hlt, hsur⟩ := char_facts c
      by_cases h1 : c.toNat < 0x80
      · have henc : utf8EncodeCharNat c = [c.toNat] := by
          unfold utf8EncodeCharNat
          rw [if_pos h1]
        simp only [List.map_cons, List.flatten_cons, henc, List.cons_append,
          List.nil_append]
        rw [utf8DecodeAux.eq_def]
        dsimp only
        rw [if_pos h1]
        rw [ih f hcs]
        simp [Char.ofNat_toNat]
      · by_cases h2 : c.toNat < 0x800
        · have henc : utf8EncodeCharNat c =
              [0xC0 + c.toNat / 64, 0x80 + c.toNat % 64] := by
            unfold utf8EncodeCharNat
            rw [if_neg h1, if_pos h2]
          simp only [List.map_cons, List.flatten_cons, henc, List.cons_append,
            List.nil_append]
          rw [utf8DecodeAux.eq_def]
          dsimp only
          rw [if_neg (by omega), if_neg (by omega), if_pos (by omega)]
          rw [if_pos (by omega)]
          rw [show (0xC0 + c.toNat / 64 - 0xC0) * 64 +
              (0x80 + c.toNat % 64 - 0x80) = c.toNat from by omega]
          rw [if_pos (by omega)]
          rw [ih f hcs]
          simp [Char.ofNat_toNat]
        · by_cases h3 : c.toNat < 0x10000
          · have henc : utf8EncodeCharNat c =
                [0xE0 + c.toNat / 4096, 0x80 + c.toNat / 64 % 64,
                 0x80 + c.toNat % 64] := by
              unfold utf8EncodeCharNat
              rw [if_neg h1, if_neg h2, if_pos h3]
            simp only [List.map_cons, List.flatten_cons, henc,
              List.cons_append, List.nil_append]
            rw [utf8DecodeAux.eq_def]
            dsimp only
            rw [if_neg (by omega), if_neg (by omega), if_neg (by omega),
              if_pos (by omega)]
            rw [if_pos (by constructor <;> constructor <;> omega)]
            rw [show (0xE0 + c.toNat / 4096 - 0xE0) * 4096 +
                (0x80 + c.toNat / 64 % 64 - 0x80) * 64 +
                (0x80 + c.toNat % 64 - 0x80) = c.toNat from by omega]
            rw [if_pos (by omega)]
            rw [ih f hcs]
            simp [Char.ofNat_toNat]
          · have henc : utf8EncodeCharNat c =
                [0xF0 + c.toNat / 262144, 0x80 + c.toNat / 4096 % 64,
                 0x80 + c.toNat / 64 % 64, 0x80 + c.toNat % 64] := by
              unfold utf8EncodeCharNat
              rw [if_neg h1, if_neg h2, if_neg h3]
            simp only [List.map_cons, List.flatten_cons, henc,
              List.cons_append, List.nil_append]
            rw [utf8DecodeAux.eq_def]
            dsimp only
            rw [if_neg (by omega), if_neg (by omega), if_neg (by omega),
              if_neg (by omega), if_pos (by omega)]
            rw [if_pos (by refine ⟨⟨?_, ?_⟩, ⟨?_, ?_⟩, ?_, ?_⟩ <;> omega)]
            rw [show (0xF0 + c.toNat / 262144 - 0xF0) * 262144 +
                (0x80 + c.toNat / 4096 % 64 - 0x80) * 4096 +
                (0x80 + c.toNat / 64 % 64 - 0x80) * 64 +
                (0x80 + c.toNat % 64 - 0x80) = c.toNat from by omega]
            rw [if_pos (by omega)]
            rw [ih f hcs]
            simp [Char.ofNat_toNat]

/-- Reading back the bytes of a Go string yields the string. -/
theorem utf8_roundtrip (s : String) :
    utf8DecodeBytes (strBytes s) = some s.data := by
  unfold utf8DecodeBytes strBytes
  refine utf8_aux_roundtrip s.data _ ?_
  induction s.data with
  | nil => simp
  | cons c cs ih =>
    have : 1 ≤ (utf8EncodeCharNat c).length := by
      unfold utf8EncodeCharNat
      dsimp only
      split
      · simp
      · split
        · simp
        · split <;> simp
    simp only [List.map_cons, List.flatten_cons, List.length_append,
      List.length_cons]
    omega

/-- A string reassembles from its characters. -/
theorem data_asString (s : String) : s.data.asString = s := rfl

/-- One node's worth of position bytes. -/
theorem encNP_cons (n : WNode) (ns : List WNode) :
    encodeNodePositions (n :: ns) =
      u32LE (u32OfInt n.docID) ++
        (u32LE (u32OfInt n.offset) ++ encodeNodePositions ns) := by
  simp [encodeNodePositions]

/-- The node-positions payload is eight bytes per node. -/
theorem encNP_length (ns : List WNode) :
    (encodeNodePositions ns).length = 8 * ns.length := by
  induction ns with
  | nil => simp [encodeNodePositions]
  | cons n ns ih =>
    rw [encNP_cons]
    simp [ih, u32LE_length]
    omega

/-- Decoding the encoded node positions yields the nodes with
normalized coordinates and empty towers. -/
theorem nodesLoop_at :
    ∀ (ns : List WNode) (pre suf : List Nat) (acc : List WNode),
      decodeNodesLoop (pre ++ (encodeNodePositions ns ++ suf)) ns.length
        pre.length acc =
      some (acc ++ ns.map (fun n =>
          ⟨intOfU32 (u32OfInt n.docID), intOfU32 (u32OfInt n.offset), []⟩),
        pre.length + (encodeNodePositions ns).length) := by
  intro ns
  induction ns with
  | nil =>
    intro pre suf acc
    simp [decodeNodesLoop, encodeNodePositions]
  | cons n ns ih =>
    intro pre suf acc
    simp only [List.length_cons]
    rw [decodeNodesLoop]
    rw [encNP_cons]
    simp only [List.append_assoc]
    have h1 := readU32_at pre
      (u32LE (u32OfInt n.offset) ++ (encodeNodePositions ns ++ suf))
      (u32OfInt n.docID)
    rw [Nat.mod_eq_of_lt (u32OfInt_lt _)] at h1
    rw [h1]
    dsimp only
    have h2 := readU32_at (pre ++ u32LE (u32OfInt n.docID))
      (encodeNodePositions ns ++ suf) (u32OfInt n.offset)
    rw [Nat.mod_eq_of_lt (u32OfInt_lt _)] at h2
    simp only [List.append_assoc, List.length_append, u32LE_length] at h2
    rw [h2]
    dsimp only
    have h3 := ih (pre ++ u32LE (u32OfInt n.docID) ++ u32LE (u32OfInt n.offset))
      suf (acc ++ [⟨intOfU32 (u32OfInt n.docID), intOfU32 (u32OfInt n.offset), []⟩])
    simp only [List.append_assoc, List.length_append, u32LE_length] at h3
    rw [show pre.length + 8 = pre.length + (4 + 4) from by omega, h3]
    simp [u32LE_length, encNP_length]
    omega

/-- Decoding a length-prefixed node-position block. -/
theorem decodeNodePositions_at (ns : List WNode) (pre suf : List Nat)
    (h : 8 * ns.length < 2 ^ 32) :
    decodeNodePositions
        (pre ++ (writeLenPrefixed (encodeNodePositions ns) ++ suf))
        pre.length =
      some (ns.map (fun n =>
          ⟨intOfU32 (u32OfInt n.docID), intOfU32 (u32OfInt n.offset), []⟩),
        pre.length + (4 + 8 * ns.length)) := by
  unfold decodeNodePositions writeLenPrefixed
  rw [encNP_length]
  simp only [List.append_assoc]
  rw [readU32_at]
  dsimp only
  rw [Nat.mod_eq_of_lt h]
  rw [show (8 * ns.length / 4 + 1) / 2 = ns.length from by omega]
  have h3 := nodesLoop_at ns (pre ++ u32LE (8 * ns.length)) suf []
  simp only [List.append_assoc, List.length_append, u32LE_length,
    List.nil_append, encNP_length] at h3
  rw [h3]
  simp [Nat.add_assoc]

/-- The byte length of an encoded tower prefix. -/
theorem towerBytes_length (es : List Nat) :
    ((es.map u16LE).flatten).length = 2 * es.length := by
  induction es with
  | nil => simp
  | cons e es ih => simp [ih, u16LE_length]; omega

/-- Reading back `count` tower entries below the height limit. -/
theorem towerEntries_at :
    ∀ (es : List Nat) (pre suf : List Nat) (acc : List Nat) (level : Nat),
      (∀ e ∈ es, e < 2 ^ 16) → es.length + level ≤ 32 →
      decodeTowerEntries (pre ++ ((es.map u16LE).flatten ++ suf)) es.length
        pre.length level acc =
      some (acc ++ es, pre.length + 2 * es.length) := by
  intro es
  induction es with
  | nil =>
    intro pre suf acc level _ _
    simp [decodeTowerEntries]
  | cons e es ih =>
    intro pre suf acc level hlt hlen
    simp only [List.length_cons]
    rw [decodeTowerEntries]
    simp only [List.map_cons, List.flatten_cons, List.append_assoc]
    rw [readU16_at]
    rw [Nat.mod_eq_of_lt (hlt e (List.mem_cons_self e es))]
    dsimp only
    rw [if_neg (fun hc => absurd hc.1 (by simp at hlen; omega))]
    have h3 := ih (pre ++ u16LE e) suf (acc ++ [e]) (level + 1)
      (fun x hx => hlt x (List.mem_cons_of_mem e hx)) (by simp at hlen ⊢; omega)
    simp only [List.append_assoc, List.length_append, u16LE_length] at h3
    rw [h3]
    simp
    omega

/-- Both branches of `encodeTowerForNode` write the length-prefixed
`normTower` entries. -/
theorem encodeTowerForNode_eq (n : WNode) :
    encodeTowerForNode n =
      writeLenPrefixed ((normTower n.tower).map u16LE).flatten := by
  unfold encodeTowerForNode normTower
  by_cases hI : ((n.tower.take 32).takeWhile (fun i => i ≠ 0)).length = 0
  · rw [if_pos hI, if_pos hI]
    simp
  · rw [if_neg hI, if_neg hI]

/-- Normalized tower entries stay below `2^16`. -/
theorem normTower_entries_lt {tw : List Nat} (h : ∀ i ∈ tw, i < 2 ^ 16) :
    ∀ e ∈ normTower tw, e < 2 ^ 16 := by
  intro e he
  unfold normTower at he
  split at he
  · simp at he
    omega
  · exact h e (List.mem_of_mem_take ((List.takeWhile_sublist _).mem he))

/-- A normalized tower has between 1 and 32 entries. -/
theorem normTower_length (tw : List Nat) :
    1 ≤ (normTower tw).length ∧ (normTower tw).length ≤ 32 := by
  unfold normTower
  split
  · simp
  · next hI =>
    refine ⟨by omega, ?_⟩
    exact le_trans ((List.takeWhile_sublist _).length_le)
      (by simpa using List.length_take_le 32 tw)

/-- Decoding the tower records attaches each node's normalized
tower. -/
theorem towersLoop_at :
    ∀ (ns : List WNode) (pre suf : List Nat) (acc : List WNode),
      (∀ n ∈ ns, ∀ i ∈ n.tower, i < 2 ^ 16) →
      decodeTowersLoop (pre ++ ((ns.map encodeTowerForNode).flatten ++ suf))
        (ns.map (fun n =>
          ⟨intOfU32 (u32OfInt n.docID), intOfU32 (u32OfInt n.offset), []⟩))
        pre.length acc =
      some (acc ++ ns.map normNode,
        pre.length + ((ns.map encodeTowerForNode).flatten).length) := by
  intro ns
  induction ns with
  | nil =>
    intro pre suf acc _
    simp [decodeTowersLoop]
  | cons n ns ih =>
    intro pre suf acc h
    simp only [List.map_cons, List.flatten_cons]
    rw [decodeTowersLoop]
    rw [encodeTowerForNode_eq n]
    unfold writeLenPrefixed
    rw [towerBytes_length]
    simp only [List.append_assoc]
    rw [readU32_at]
    rw [Nat.mod_eq_of_lt (by have := (normTower_length n.tower).2; omega)]
    dsimp only
    rw [show 2 * (normTower n.tower).length / 2 =
      (normTower n.tower).length from by omega]
    have h2 := towerEntries_at (normTower n.tower)
      (pre ++ u32LE (2 * (normTower n.tower).length))
      ((ns.map encodeTowerForNode).flatten ++ suf) [] 0
      (normTower_entries_lt (h n (List.mem_cons_self n ns)))
      (by have := (normTower_length n.tower).2; omega)
    simp only [List.append_assoc, List.length_append, u32LE_length,
      List.nil_append] at h2
    rw [h2]
    dsimp only
    have h3 := ih
      (pre ++ u32LE (2 * (normTower n.tower).length) ++
        ((normTower n.tower).map u16LE).flatten)
      suf (acc ++ [normNode n])
      (fun x hx => h x (List.mem_cons_of_mem n hx))
    simp only [List.append_assoc, List.length_append, u32LE_length,
      towerBytes_length, normNode] at h3
    rw [show pre.length + 4 + 2 * (normTower n.tower).length =
      pre.length + (4 + 2 * (normTower n.tower).length) from by omega]
    rw [h3]
    simp only [Prod.mk.injEq, Option.some.injEq, List.map_cons,
      List.append_assoc, List.singleton_append, List.length_append,
      u32LE_length, towerBytes_length]
    exact ⟨rfl, by omega⟩

/-- Reading back a written Go string. -/
theorem readGoString_at (s : String) (pre suf : List Nat)
    (h : (strBytes s).length < 2 ^ 32) :
    readGoString (pre ++ (writeLenPrefixed (strBytes s) ++ suf)) pre.length =
      some (s, pre.length + (4 + (strBytes s).length)) := by
  unfold readGoString writeLenPrefixed
  simp only [List.append_assoc]
  rw [readU32_at]
  dsimp only
  rw [Nat.mod_eq_of_lt h]
  have h2 := readBytes_exact (pre ++ u32LE (strBytes s).length)
    (strBytes s) suf
  simp only [List.append_assoc, List.length_append, u32LE_length] at h2
  rw [h2]
  dsimp only
  rw [utf8_roundtrip]
  dsimp only
  rw [data_asString]
  simp [Nat.add_assoc]

/-- Decoding one encoded posting-list block. -/
theorem termBlock_at (term : String) (ns : List WNode) (pre suf : List Nat)
    (hs : (strBytes term).length < 2 ^ 32) (hn : 8 * ns.length < 2 ^ 32)
    (ht : ∀ n ∈ ns, ∀ i ∈ n.tower, i < 2 ^ 16) :
    decodeTermBlock (pre ++ (encodeTerm term ns ++ suf)) pre.length =
      some ((term, ns.map normNode),
        pre.length + (encodeTerm term ns).length) := by
  unfold decodeTermBlock encodeTerm
  simp only [List.append_assoc]
  rw [readGoString_at term pre _ hs]
  dsimp only
  have h2 := decodeNodePositions_at ns (pre ++ writeLenPrefixed (strBytes term))
    ((ns.map encodeTowerForNode).flatten ++ suf) hn
  have h3 := towersLoop_at ns
    (pre ++ writeLenPrefixed (strBytes term) ++
      writeLenPrefixed (encodeNodePositions ns))
    suf [] ht
  simp only [List.append_assoc, List.length_append, writeLenPrefixed,
    u32LE_length, encNP_length, List.length_nil, Nat.add_zero,
    List.nil_append] at h2 h3 ⊢
  rw [h2]
  dsimp only
  rw [show pre.length + (4 + (strBytes term).length) + (4 + 8 * ns.length) =
    pre.length + (4 + ((strBytes term).length + (4 + 8 * ns.length)))
    from by omega]
  rw [h3]
  simp only [Option.some.injEq, Prod.mk.injEq, and_true, true_and]
  omega

/-- An encoded posting-list block is never empty. -/
theorem encodeTerm_pos (term : String) (ns : List WNode) :
    0 < (encodeTerm term ns).length := by
  unfold encodeTerm writeLenPrefixed
  simp [u32LE_length]

/-- Decoding the trailing posting block consumes every entry exactly,
ending at the end of the input. -/
theorem termsLoop_at :
    ∀ (es : List (String × List WNode)) (pre : List Nat)
      (acc : List (String × List WNode)) (fuel : Nat),
      (∀ e ∈ es, (strBytes e.1).length < 2 ^ 32 ∧ 8 * e.2.length < 2 ^ 32 ∧
        ∀ n ∈ e.2, ∀ i ∈ n.tower, i < 2 ^ 16) →
      es.length ≤ fuel →
      decodeTermsLoop (pre ++ (es.map (fun e => encodeTerm e.1 e.2)).flatten)
        fuel pre.length acc =
      some (acc ++ es.map (fun e => (e.1, e.2.map normNode)),
        pre.length + ((es.map (fun e => encodeTerm e.1 e.2)).flatten).length) := by
  intro es
  induction es with
  | nil =>
    intro pre acc fuel _ _
    rcases fuel with _ | f <;>
      simp [decodeTermsLoop]
  | cons e es ih =>
    intro pre acc fuel h hf
    rcases fuel with _ | f
    · simp at hf
    · have hcond := h e (List.mem_cons_self e es)
      rw [decodeTermsLoop]
      rw [if_neg (by
        simp only [List.map_cons, List.flatten_cons, List.length_append,
          List.append_assoc]
        have h1 := encodeTerm_pos e.1 e.2
        omega)]
      simp only [List.map_cons, List.flatten_cons, List.append_assoc]
      rw [termBlock_at e.1 e.2 pre _ hcond.1 hcond.2.1 hcond.2.2]
      dsimp only
      have h3 := ih (pre ++ encodeTerm e.1 e.2)
        (acc ++ [(e.1, e.2.map normNode)]) f
        (fun x hx => h x (List.mem_cons_of_mem e hx)) (by simpa using hf)
      simp only [List.append_assoc, List.length_append] at h3
      rw [show pre.length + (encodeTerm e.1 e.2).length =
        pre.length + (encodeTerm e.1 e.2).length from rfl]
      rw [h3]
      simp only [Option.some.injEq, Prod.mk.injEq, List.map_cons,
        List.append_assoc, List.singleton_append, List.length_append,
        and_true, true_and]
      omega

/-- One term-frequency entry's bytes. -/
theorem encodeTermFreq_eq (f : String × Int) :
    encodeTermFreq f = u32LE (strBytes f.1).length ++
      (strBytes f.1 ++ u32LE (u32OfInt f.2)) := by
  simp [encodeTermFreq]

/-- Decoding the term-frequency entries of one record. -/
theorem tfLoop_at :
    ∀ (fs : List (String × Int)) (pre suf : List Nat)
      (acc : List (String × Int)),
      (∀ f ∈ fs, (strBytes f.1).length < 2 ^ 32) →
      decodeTermFreqsLoop (pre ++ ((fs.map encodeTermFreq).flatten ++ suf))
        fs.length pre.length acc =
      some (acc ++ fs.map (fun f => (f.1, (u32OfInt f.2 : Int))),
        pre.length + ((fs.map encodeTermFreq).flatten).length) := by
  intro fs
  induction fs with
  | nil =>
    intro pre suf acc _
    simp [decodeTermFreqsLoop]
  | cons f fs ih =>
    intro pre suf acc h
    have hf := h f (List.mem_cons_self f fs)
    simp only [List.length_cons, List.map_cons, List.flatten_cons,
      encodeTermFreq_eq, List.append_assoc]
    rw [decodeTermFreqsLoop]
    rw [readU32_at, Nat.mod_eq_of_lt hf]
    dsimp only
    have h2 := readBytes_exact (pre ++ u32LE (strBytes f.1).length)
      (strBytes f.1)
      (u32LE (u32OfInt f.2) ++ ((fs.map encodeTermFreq).flatten ++ suf))
    simp only [List.append_assoc, List.length_append, u32LE_length] at h2
    rw [h2]
    dsimp only
    rw [utf8_roundtrip]
    dsimp only
    have h3 := readU32_at
      (pre ++ u32LE (strBytes f.1).length ++ strBytes f.1)
      ((fs.map encodeTermFreq).flatten ++ suf) (u32OfInt f.2)
    rw [Nat.mod_eq_of_lt (u32OfInt_lt _)] at h3
    simp only [List.append_assoc, List.length_append, u32LE_length] at h3
    rw [show pre.length + 4 + (strBytes f.1).length =
      pre.length + (4 + (strBytes f.1).length) from by omega]
    rw [h3]
    dsimp only
    rw [data_asString]
    have h4 := ih
      (pre ++ u32LE (strBytes f.1).length ++ strBytes f.1 ++
        u32LE (u32OfInt f.2))
      suf (acc ++ [(f.1, (u32OfInt f.2 : Int))])
      (fun x hx => h x (List.mem_cons_of_mem f hx))
    simp only [List.append_assoc, List.length_append, u32LE_length] at h4
    rw [show pre.length + (4 + (strBytes f.1).length) + 4 =
      pre.length + (4 + ((strBytes f.1).length + 4)) from by omega]
    rw [h4]
    simp only [Option.some.injEq, Prod.mk.injEq, List.map_cons,
      List.append_assoc, List.singleton_append, List.length_append,
      u32LE_length, and_true, true_and]
    omega

/-- One document-statistics record's bytes. -/
theorem encodeDocStatsRecord_eq (st : DocumentStats) :
    encodeDocStatsRecord st = u32LE (u32OfInt st.DocID) ++
      (u32LE (u32OfInt st.Length) ++ (u32LE st.TermFreqs.length ++
        (st.TermFreqs.map encodeTermFreq).flatten)) := by
  simp [encodeDocStatsRecord]

/-- Decoding the encoded document-statistics records appends the
normalized records in order. -/
theorem statsLoop_at :
    ∀ (sts : List (Int × DocumentStats)) (pre suf : List Nat)
      (jdx : InvertedIndex),
      (∀ e ∈ sts, e.2.TermFreqs.length < 2 ^ 32 ∧
        ∀ f ∈ e.2.TermFreqs, (strBytes f.1).length < 2 ^ 32) →
      decodeDocStatsLoop
        (pre ++ ((sts.map (fun e => encodeDocStatsRecord e.2)).flatten ++ suf))
        sts.length jdx pre.length =
      .inr ({ jdx with
          DocStats := jdx.DocStats ++
            sts.map (fun e => ((u32OfInt e.2.DocID : Int), normStat e.2)) },
        pre.length +
          ((sts.map (fun e => encodeDocStatsRecord e.2)).flatten).length) := by
  intro sts
  induction sts with
  | nil =>
    intro pre suf jdx _
    simp [decodeDocStatsLoop]
  | cons e sts ih =>
    intro pre suf jdx h
    have he := h e (List.mem_cons_self e sts)
    simp only [List.length_cons, List.map_cons, List.flatten_cons,
      encodeDocStatsRecord_eq, List.append_assoc]
    rw [decodeDocStatsLoop]
    rw [readU32_at, Nat.mod_eq_of_lt (u32OfInt_lt _)]
    dsimp only
    have h2 := readU32_at (pre ++ u32LE (u32OfInt e.2.DocID))
      (u32LE e.2.TermFreqs.length ++
        ((e.2.TermFreqs.map encodeTermFreq).flatten ++
          ((sts.map (fun x => encodeDocStatsRecord x.2)).flatten ++ suf)))
      (u32OfInt e.2.Length)
    rw [Nat.mod_eq_of_lt (u32OfInt_lt _)] at h2
    simp only [List.append_assoc, List.length_append, u32LE_length,
      encodeDocStatsRecord_eq] at h2
    rw [h2]
    dsimp only
    have h3 := readU32_at
      (pre ++ u32LE (u32OfInt e.2.DocID) ++ u32LE (u32OfInt e.2.Length))
      ((e.2.TermFreqs.map encodeTermFreq).flatten ++
        ((sts.map (fun x => encodeDocStatsRecord x.2)).flatten ++ suf))
      e.2.TermFreqs.length
    rw [Nat.mod_eq_of_lt he.1] at h3
    simp only [List.append_assoc, List.length_append, u32LE_length,
      encodeDocStatsRecord_eq] at h3
    rw [show pre.length + 4 + 4 = pre.length + 8 from by omega] at h3
    rw [h3]
    dsimp only
    have h4 := tfLoop_at e.2.TermFreqs
      (pre ++ u32LE (u32OfInt e.2.DocID) ++ u32LE (u32OfInt e.2.Length) ++
        u32LE e.2.TermFreqs.length)
      ((sts.map (fun x => encodeDocStatsRecord x.2)).flatten ++ suf) []
      he.2
    simp only [List.append_assoc, List.length_append, u32LE_length,
      List.nil_append, encodeDocStatsRecord_eq] at h4
    rw [show pre.length + 4 + 4 + 4 = pre.length + 12 from by omega] at h4
    rw [h4]
    dsimp only
    have h5 := ih
      (pre ++ u32LE (u32OfInt e.2.DocID) ++ u32LE (u32OfInt e.2.Length) ++
        u32LE e.2.TermFreqs.length ++ (e.2.TermFreqs.map encodeTermFreq).flatten)
      suf
      { jdx with
          DocStats := jdx.DocStats ++
            [((u32OfInt e.2.DocID : Int), normStat e.2)] }
      (fun x hx => h x (List.mem_cons_of_mem e hx))
    simp only [List.append_assoc, List.length_append, u32LE_length,
      encodeDocStatsRecord_eq] at h5
    rw [show pre.length +
      (4 + (4 + (4 + ((e.2.TermFreqs.map encodeTermFreq).flatten).length))) =
      pre.length + 12 + ((e.2.TermFreqs.map encodeTermFreq).flatten).length
      from by omega] at h5
    rw [show (⟨(u32OfInt e.2.DocID : Int), (u32OfInt e.2.Length : Int),
      e.2.TermFreqs.map (fun f => (f.1, (u32OfInt f.2 : Int)))⟩ :
        DocumentStats) = normStat e.2 from by simp [normStat]]
    rw [h5]
    simp only [Sum.inr.injEq, Prod.mk.injEq, List.map_cons,
      List.append_assoc, List.singleton_append, List.length_append,
      u32LE_length, and_true, true_and]
    omega

/-- Decoding the fixed 28-byte header prefix. -/
theorem decodeHeader_at (jdx idx : InvertedIndex) (rest : List Nat) :
    decodeHeader jdx
      (u32LE (u32OfInt idx.TotalDocs) ++
        (u64LE (u64OfInt idx.TotalTerms) ++
          (u64LE idx.BM25Params.K1bits ++
            (u64LE idx.BM25Params.Bbits ++ rest)))) 0 =
    .inr ({ jdx with
        TotalDocs := (u32OfInt idx.TotalDocs : Int),
        TotalTerms := intOfU64 (u64OfInt idx.TotalTerms),
        BM25Params := ⟨idx.BM25Params.K1bits % 2 ^ 64,
          idx.BM25Params.Bbits % 2 ^ 64⟩ }, 28) := by
  unfold decodeHeader
  have h1 := readU32_at ([] : List Nat)
    (u64LE (u64OfInt idx.TotalTerms) ++
      (u64LE idx.BM25Params.K1bits ++ (u64LE idx.BM25Params.Bbits ++ rest)))
    (u32OfInt idx.TotalDocs)
  rw [Nat.mod_eq_of_lt (u32OfInt_lt _)] at h1
  simp only [List.nil_append, List.length_nil] at h1
  rw [h1]
  dsimp only
  have h2 := readU64_at (u32LE (u32OfInt idx.TotalDocs))
    (u64LE idx.BM25Params.K1bits ++ (u64LE idx.BM25Params.Bbits ++ rest))
    (u64OfInt idx.TotalTerms)
  rw [Nat.mod_eq_of_lt (u64OfInt_lt _)] at h2
  simp only [u32LE_length] at h2
  rw [show (0 : Nat) + 4 = 4 from rfl, h2]
  dsimp only
  have h3 := readU64_at
    (u32LE (u32OfInt idx.TotalDocs) ++ u64LE (u64OfInt idx.TotalTerms))
    (u64LE idx.BM25Params.Bbits ++ rest) idx.BM25Params.K1bits
  simp only [List.append_assoc, List.length_append, u32LE_length,
    u64LE_length] at h3
  rw [show (0 : Nat) + 12 = 12 from rfl, h3]
  dsimp only
  have h4 := readU64_at
    (u32LE (u32OfInt idx.TotalDocs) ++
      (u64LE (u64OfInt idx.TotalTerms) ++ u64LE idx.BM25Params.K1bits))
    rest idx.BM25Params.Bbits
  simp only [List.append_assoc, List.length_append, u32LE_length,
    u64LE_length] at h4
  rw [show (0 : Nat) + 20 = 20 from rfl, h4]

/-- The posting block holds at least one byte per term entry. -/
theorem flat_ge_count (es : List (String × List WNode)) :
    es.length ≤ ((es.map (fun e => encodeTerm e.1 e.2)).flatten).length := by
  induction es with
  | nil => simp
  | cons e es ih =>
    simp only [List.map_cons, List.flatten_cons, List.length_append,
      List.length_cons]
    have := encodeTerm_pos e.1 e.2
    omega

/-- Decoding an encoded index succeeds and produces the normalized
index (any decode target: only its `DocBitmaps` survives). -/
theorem decode_encode (target idx : InvertedIndex)
    (hDS : idx.DocStats.length < 2 ^ 32)
    (hTF : ∀ e ∈ idx.DocStats, e.2.TermFreqs.length < 2 ^ 32 ∧
      ∀ f ∈ e.2.TermFreqs, (strBytes f.1).length < 2 ^ 32)
    (hPL : ∀ e ∈ idx.PostingsList, (strBytes e.1).length < 2 ^ 32 ∧
      8 * e.2.length < 2 ^ 32 ∧ ∀ n ∈ e.2, ∀ i ∈ n.tower, i < 2 ^ 16) :
    target.Decode idx.Encode = .inr (normalizeInto target idx) := by
  unfold InvertedIndex.Decode InvertedIndex.Encode encodeHeader encodeDocStats
  simp only [List.append_assoc]
  rw [decodeHeader_at target idx _]
  dsimp only
  unfold decodeDocStats
  have h1 := readU32_at
    (u32LE (u32OfInt idx.TotalDocs) ++
      (u64LE (u64OfInt idx.TotalTerms) ++
        (u64LE idx.BM25Params.K1bits ++ u64LE idx.BM25Params.Bbits)))
    ((idx.DocStats.map (fun e => encodeDocStatsRecord e.2)).flatten ++
      (idx.PostingsList.map (fun e => encodeTerm e.1 e.2)).flatten)
    idx.DocStats.length
  rw [Nat.mod_eq_of_lt hDS] at h1
  simp only [List.append_assoc, List.length_append, u32LE_length,
    u64LE_length] at h1
  rw [h1]
  dsimp only
  have h2 := statsLoop_at idx.DocStats
    (u32LE (u32OfInt idx.TotalDocs) ++
      (u64LE (u64OfInt idx.TotalTerms) ++
        (u64LE idx.BM25Params.K1bits ++
          (u64LE idx.BM25Params.Bbits ++ u32LE idx.DocStats.length))))
    ((idx.PostingsList.map (fun e => encodeTerm e.1 e.2)).flatten)
    { target with
        TotalDocs := (u32OfInt idx.TotalDocs : Int),
        TotalTerms := intOfU64 (u64OfInt idx.TotalTerms),
        BM25Params := ⟨idx.BM25Params.K1bits % 2 ^ 64,
          idx.BM25Params.Bbits % 2 ^ 64⟩,
        DocStats := [] }
    hTF
  simp only [List.append_assoc, List.length_append, u32LE_length,
    u64LE_length, List.nil_append] at h2
  rw [show (28 : Nat) + 4 = 32 from rfl, h2]
  dsimp only
  have h3 := termsLoop_at idx.PostingsList
    (u32LE (u32OfInt idx.TotalDocs) ++
      (u64LE (u64OfInt idx.TotalTerms) ++
        (u64LE idx.BM25Params.K1bits ++
          (u64LE idx.BM25Params.Bbits ++
            (u32LE idx.DocStats.length ++
              (idx.DocStats.map (fun e => encodeDocStatsRecord e.2)).flatten)))))
    ([] : List (String × List WNode))
    (u32LE (u32OfInt idx.TotalDocs) ++
      (u64LE (u64OfInt idx.TotalTerms) ++
        (u64LE idx.BM25Params.K1bits ++
          (u64LE idx.BM25Params.Bbits ++
            (u32LE idx.DocStats.length ++
              ((idx.DocStats.map (fun e => encodeDocStatsRecord e.2)).flatten ++
                (idx.PostingsList.map
                  (fun e => encodeTerm e.1 e.2)).flatten)))))).length
    hPL
    (by
      have ha := flat_ge_count idx.PostingsList
      simp only [List.length_append]
      omega)
  simp only [List.append_assoc, List.length_append, u32LE_length,
    u64LE_length, List.nil_append] at h3
  simp only [List.length_append, u32LE_length, u64LE_length]
  rw [show (4 + (8 + (8 + (8 + 4))) +
      ((idx.DocStats.map (fun e => encodeDocStatsRecord e.2)).flatten).length
      : Nat) =
    4 + (8 + (8 + (8 + (4 +
      ((idx.DocStats.map
        (fun e => encodeDocStatsRecord e.2)).flatten).length))))
    from by omega]
  rw [h3]
  dsimp only
  unfold normalizeInto
  rfl

/-- `takeWhile` is idempotent. -/
theorem takeWhile_twice {α : Type} (p : α → Bool) (l : List α) :
    (l.takeWhile p).takeWhile p = l.takeWhile p := by
  induction l with
  | nil => rfl
  | cons a t ih =>
    by_cases h : p a
    · simp [List.takeWhile_cons, h, ih]
    · simp [List.takeWhile_cons, h]

/-- Tower normalization is idempotent. -/
theorem normTower_idem (tw : List Nat) :
    normTower (normTower tw) = normTower tw := by
  unfold normTower
  by_cases hI : ((tw.take 32).takeWhile (fun i => i ≠ 0)).length = 0
  · rw [if_pos hI]
    rfl
  · rw [if_neg hI]
    have hlen : ((tw.take 32).takeWhile (fun i => i ≠ 0)).length ≤ 32 :=
      le_trans ((List.takeWhile_sublist _).length_le)
        (by simpa using List.length_take_le 32 tw)
    rw [List.take_of_length_le hlen, takeWhile_twice]
    rw [if_neg hI]

/-- Re-encoding a decoded term-frequency entry is byte-identical. -/
theorem encodeTermFreq_norm (f : String × Int) :
    encodeTermFreq (f.1, (u32OfInt f.2 : Int)) = encodeTermFreq f := by
  unfold encodeTermFreq
  rw [u32OfInt_natCast _ (u32OfInt_lt _)]

/-- Re-encoding a decoded statistics record is byte-identical. -/
theorem encodeDocStatsRecord_norm (st : DocumentStats) :
    encodeDocStatsRecord (normStat st) = encodeDocStatsRecord st := by
  unfold encodeDocStatsRecord normStat
  rw [u32OfInt_natCast _ (u32OfInt_lt _), u32OfInt_natCast _ (u32OfInt_lt _)]
  rw [List.length_map]
  rw [List.map_map]
  exact congrArg (fun z => u32LE (u32OfInt st.DocID) ++
      u32LE (u32OfInt st.Length) ++ u32LE st.TermFreqs.length ++ z)
    (congrArg List.flatten
      (List.map_congr_left (fun f _ => encodeTermFreq_norm f)))

/-- Re-encoding a decoded tower record is byte-identical. -/
theorem encodeTowerForNode_norm (n : WNode) :
    encodeTowerForNode (normNode n) = encodeTowerForNode n := by
  rw [encodeTowerForNode_eq, encodeTowerForNode_eq]
  unfold normNode
  rw [show (⟨intOfU32 (u32OfInt n.docID), intOfU32 (u32OfInt n.offset),
    normTower n.tower⟩ : WNode).tower = normTower n.tower from rfl]
  rw [normTower_idem]

/-- Re-encoding decoded node positions is byte-identical. -/
theorem encodeNodePositions_norm (ns : List WNode) :
    encodeNodePositions (ns.map normNode) = encodeNodePositions ns := by
  unfold encodeNodePositions normNode
  rw [List.map_map]
  refine congrArg _ (List.map_congr_left (fun n _ => ?_))
  simp only [Function.comp]
  rw [u32OfInt_intOfU32 _ (u32OfInt_lt _), u32OfInt_intOfU32 _ (u32OfInt_lt _)]

/-- Re-encoding a decoded posting-list block is byte-identical. -/
theorem encodeTerm_norm (term : String) (ns : List WNode) :
    encodeTerm term (ns.map normNode) = encodeTerm term ns := by
  unfold encodeTerm
  rw [encodeNodePositions_norm]
  rw [List.map_map]
  rw [List.map_congr_left (fun n _ => by
    simp only [Function.comp]
    exact encodeTowerForNode_norm n)]

/-- Re-encoding the decoded index reproduces the original bytes. -/
theorem encode_norm (target idx : InvertedIndex) :
    (normalizeInto target idx).Encode = idx.Encode := by
  unfold InvertedIndex.Encode encodeHeader encodeDocStats normalizeInto
  dsimp only
  rw [u32OfInt_natCast _ (u32OfInt_lt _), u64OfInt_intOfU64 _ (u64OfInt_lt _),
    u64LE_mod, u64LE_mod, List.length_map, List.map_map, List.map_map]
  have hst : idx.DocStats.map ((fun e => encodeDocStatsRecord e.2) ∘
      (fun e => ((u32OfInt e.2.DocID : Int), normStat e.2))) =
      idx.DocStats.map (fun e => encodeDocStatsRecord e.2) :=
    List.map_congr_left (fun e _ => encodeDocStatsRecord_norm e.2)
  have hpl : idx.PostingsList.map ((fun e => encodeTerm e.1 e.2) ∘
      (fun e => (e.1, e.2.map normNode))) =
      idx.PostingsList.map (fun e => encodeTerm e.1 e.2) :=
    List.map_congr_left (fun e _ => encodeTerm_norm e.1 e.2)
  rw [hst, hpl]

/-! ### Claim C3 -/

/-- Claim C3, amended: for any fixed enumeration order of the index
maps (the model's association-list order, which `Decode` reproduces)
and sizes below the length-field widths — term and term-frequency
strings and posting payloads under `2^32` bytes, fewer than `2^32`
documents, tower pointers under `2^16` — decoding an encoded index into
any target succeeds and re-encoding it is byte-identical to the
original encoding.  Without fixing the enumeration order the claimed
byte-identity is not guaranteed: Go's map iteration order is
unspecified, and `claim_C3_counterexample` shows two orders of the same
posting map whose encodings differ. -/
theorem claim_C3_amended (target idx : InvertedIndex)
    (hDS : idx.DocStats.length < 2 ^ 32)
    (hTF : ∀ e ∈ idx.DocStats, e.2.TermFreqs.length < 2 ^ 32 ∧
      ∀ f ∈ e.2.TermFreqs, (strBytes f.1).length < 2 ^ 32)
    (hPL : ∀ e ∈ idx.PostingsList, (strBytes e.1).length < 2 ^ 32 ∧
      8 * e.2.length < 2 ^ 32 ∧ ∀ n ∈ e.2, ∀ i ∈ n.tower, i < 2 ^ 16) :
    ∃ idx', target.Decode idx.Encode = Sum.inr idx' ∧
      idx'.Encode = idx.Encode :=
  ⟨normalizeInto target idx, decode_encode target idx hDS hTF hPL,
    encode_norm target idx⟩

/-- Instantiation of `claim_C3_amended` on the two-term index `pidx`
decoded into a fresh index, all size hypotheses discharged. -/
theorem claim_C3_witness :
    pidx.DocStats.length < 2 ^ 32 ∧
    (∃ idx', NewInvertedIndex.Decode pidx.Encode = Sum.inr idx' ∧
      idx'.Encode = pidx.Encode) :=
  ⟨by decide, claim_C3_amended NewInvertedIndex pidx (by decide) (by decide)
    (by decide)⟩

/-- Claim C3 as universally stated is not a property of the code: the
encoder walks Go maps whose iteration order is unspecified, so
`encode` is not even a function of the map contents.  `pidx` and
`pidxrev` hold the same posting map (same entries, permuted) and the
same remaining fields, yet their encodings differ byte-for-byte —
byte-identity across a decode round trip can only hold relative to a
fixed enumeration order. -/
theorem claim_C3_counterexample :
    pidxrev.PostingsList.Perm pidx.PostingsList ∧
    pidxrev.DocStats = pidx.DocStats ∧
    pidxrev.DocBitmaps = pidx.DocBitmaps ∧
    pidxrev.TotalDocs = pidx.TotalDocs ∧
    pidxrev.TotalTerms = pidx.TotalTerms ∧
    pidxrev.BM25Params = pidx.BM25Params ∧
    pidxrev.Encode ≠ pidx.Encode := by
  refine ⟨List.reverse_perm pidx.PostingsList, rfl, rfl, rfl, rfl, rfl, ?_⟩
  decide

end Blaze
